import Mathlib

/-!
Verification of the ghaladb storage engine (a WiscKey-style key/value store
with key/value separation) against its specification.

The development shallowly embeds the core storage layer:
  * the little-endian fixed-width binary codec for `DataPtr` and `DataEntry`
    (`src/dec.rs`, bincode with fixed-int little-endian configuration);
  * a single value-log segment `Vlog` with its write buffer, framed on-disk
    layout, point reads and flushing (`src/vlog.rs`);
  * the sequential segment scanner `VlogIter` (`src/vlog.rs`);
  * the multi-segment manager `VlogsMan` (`src/vlog.rs`);
  * the in-memory key index `Keys` with its snapshot file (`src/keys.rs`);
  * the inline garbage collector `Janitor` (`src/gc.rs`);
  * the engine `GhalaDb` orchestrating put/get/delete and the inline GC
    state machine (`src/ghaladb.rs`).

Modelling conventions:
  * machine integers are `Nat` with explicit `% 2 ^ w` where the Rust code
    truncates (`de_bytes.len() as u32`);
  * byte strings are `List Nat`; values written by the codec are always
    below 256;
  * fallible operations return `Except GhalaDbError` paired with the final
    state, mirroring `&mut self` receivers (on error the mutated receiver
    survives);
  * the snappy compressor is an external collaborator: it appears as a pair
    of function fields (`encoder`/`decoder` on `Vlog`, mirroring the
    `Option<Encoder>`/`Option<Decoder>` fields of the source struct) and
    theorems that depend on compression assume the library round-trip
    `decompress (compress x) = x`;
  * the wall clock read by `Keys::time` is an oracle
    `clock : Nat → Option Nat` indexed by the number of reads so far;
    `none` models `SystemTime::duration_since` failing, which `Keys::time`
    surfaces as `SystemTimeError`;
  * writer IO faults are injected through `faults` lists consumed by each
    vlog `write_all` and by each `Keys::sync` snapshot write, making
    write-failure hypotheses satisfiable.
-/

set_option maxHeartbeats 1600000

namespace GhalaDbModel

/-- Byte strings (`Vec<u8>` / `Bytes` in `src/core.rs`). -/
abbrev Bytes := List Nat

/-- Value-log segment number (`type VlogNum = u64`). -/
abbrev VlogNum := Nat

/-! ## Little-endian fixed-width integer codec

`src/dec.rs` configures bincode with little-endian fixed-int encoding, so a
`u64` is eight little-endian bytes, a `u32` four, a `u128` sixteen and a
`bool` one byte (0 or 1). -/

/-- Encode `n` as `w` little-endian bytes (the fixed-int encoding). -/
def toLE : Nat → Nat → Bytes
  | 0, _ => []
  | w + 1, n => n % 256 :: toLE w (n / 256)

/-- Decode a little-endian byte string into a natural number.  Each byte is
reduced mod 256, as the decoder can only ever see byte values. -/
def fromLE : Bytes → Nat
  | [] => 0
  | b :: bs => b % 256 + 256 * fromLE bs

theorem toLE_length (w n : Nat) : (toLE w n).length = w := by
  induction w generalizing n with
  | zero => rfl
  | succ w ih => simp [toLE, ih]

theorem fromLE_toLE (w n : Nat) : fromLE (toLE w n) = n % 2 ^ (8 * w) := by
  induction w generalizing n with
  | zero => simp [toLE, fromLE, Nat.mod_one]
  | succ w ih =>
    have h256 : (2 : Nat) ^ (8 * (w + 1)) = 256 * 2 ^ (8 * w) := by ring
    rw [toLE, fromLE, ih, h256, Nat.mod_mul]
    simp [Nat.mod_mod_of_dvd]

theorem fromLE_toLE_of_lt {w n : Nat} (h : n < 2 ^ (8 * w)) :
    fromLE (toLE w n) = n := by
  rw [fromLE_toLE, Nat.mod_eq_of_lt h]

/-! ## DataPtr and DataEntry (`src/core.rs`, `src/vlog.rs`) -/

/-- A data pointer for data on disk (`DataPtr` in `src/core.rs`):
`{ vlog: u64, offset: u64, len: u32, compressed: bool }`. -/
structure DataPtr where
  vlog : VlogNum
  offset : Nat
  len : Nat
  compressed : Bool
deriving DecidableEq

/-- `DataPtr::serde_sz()`: the on-disk size of a serialized pointer,
`u64 + u64 + u32 + bool = 21` bytes. -/
def DataPtr.serde_sz : Nat := 21

/-- The fields of a `DataPtr` fit their Rust machine-integer types. -/
def dpBounded (dp : DataPtr) : Prop :=
  dp.vlog < 2 ^ 64 ∧ dp.offset < 2 ^ 64 ∧ dp.len < 2 ^ 32

instance (dp : DataPtr) : Decidable (dpBounded dp) := by
  unfold dpBounded; infer_instance

/-- Serialize a `DataPtr` with the fixed-int little-endian encoding
(`bincode::serialize(dp)` in `src/vlog.rs` / `Dec::ser_raw` in
`src/dec.rs`): `u64 | u64 | u32 | u8`. -/
def serDP (dp : DataPtr) : Bytes :=
  toLE 8 dp.vlog ++ toLE 8 dp.offset ++ toLE 4 dp.len ++
    [if dp.compressed then 1 else 0]

/-- Decode a `DataPtr` from a buffer of at least 21 bytes (the callers
always pass exactly 21, from `read_exact`).  An out-of-range boolean byte
is a decode error, as in bincode. -/
def deserDP (b : Bytes) : Option DataPtr :=
  if 21 ≤ b.length then
    match (b.drop 20).head? with
    | some 0 => some ⟨fromLE (b.take 8), fromLE ((b.drop 8).take 8),
        fromLE ((b.drop 16).take 4), false⟩
    | some 1 => some ⟨fromLE (b.take 8), fromLE ((b.drop 8).take 8),
        fromLE ((b.drop 16).take 4), true⟩
    | _ => none
  else none

theorem serDP_length (dp : DataPtr) : (serDP dp).length = 21 := by
  simp [serDP, toLE_length]

theorem deserDP_serDP {dp : DataPtr} (h : dpBounded dp) :
    deserDP (serDP dp) = some dp := by
  obtain ⟨h1, h2, h3⟩ := h
  have l8 : (toLE 8 dp.vlog).length = 8 := toLE_length _ _
  have l8' : (toLE 8 dp.offset).length = 8 := toLE_length _ _
  have l4 : (toLE 4 dp.len).length = 4 := toLE_length _ _
  have hlen : (serDP dp).length = 21 := serDP_length dp
  have htake8 : (serDP dp).take 8 = toLE 8 dp.vlog := by
    simp [serDP, List.take_append_eq_append_take, l8]
  have hdrop8 : (serDP dp).drop 8 = toLE 8 dp.offset ++ toLE 4 dp.len ++
      [if dp.compressed then 1 else 0] := by
    simp [serDP, List.drop_append_eq_append_drop, l8]
  have htake8' : ((serDP dp).drop 8).take 8 = toLE 8 dp.offset := by
    rw [hdrop8]
    simp [List.take_append_eq_append_take, l8']
  have hdrop16 : (serDP dp).drop 16 = toLE 4 dp.len ++
      [if dp.compressed then 1 else 0] := by
    have : (serDP dp).drop 16 = ((serDP dp).drop 8).drop 8 := by
      rw [List.drop_drop]
    rw [this, hdrop8]
    simp [List.drop_append_eq_append_drop, l8']
  have htake4 : ((serDP dp).drop 16).take 4 = toLE 4 dp.len := by
    rw [hdrop16]
    simp [List.take_append_eq_append_take, l4]
  have hdrop20 : (serDP dp).drop 20 = [if dp.compressed then 1 else 0] := by
    have : (serDP dp).drop 20 = ((serDP dp).drop 16).drop 4 := by
      rw [List.drop_drop]
    rw [this, hdrop16]
    simp [List.drop_append_eq_append_drop, l4]
  have hv : fromLE ((serDP dp).take 8) = dp.vlog := by
    rw [htake8]; exact fromLE_toLE_of_lt h1
  have ho : fromLE (((serDP dp).drop 8).take 8) = dp.offset := by
    rw [htake8']; exact fromLE_toLE_of_lt h2
  have hl : fromLE (((serDP dp).drop 16).take 4) = dp.len := by
    rw [htake4]; exact fromLE_toLE_of_lt h3
  cases hc : dp.compressed with
  | false =>
    rw [deserDP, if_pos (by omega), hdrop20, hc]
    simp only [List.head?]
    rw [hv, ho, hl]
    cases dp; simp_all
  | true =>
    rw [deserDP, if_pos (by omega), hdrop20, hc]
    simp only [List.head?]
    rw [hv, ho, hl]
    cases dp; simp_all

/-- A key/value byte pair persisted inside a frame (`DataEntry` in
`src/vlog.rs`). -/
structure DataEntry where
  key : Bytes
  val : Bytes
deriving DecidableEq

/-- Serialize a `DataEntry` (`bincode::serialize(de)`): each `Vec<u8>`
field is a `u64` little-endian length prefix followed by the raw bytes. -/
def serDE (de : DataEntry) : Bytes :=
  toLE 8 de.key.length ++ de.key ++ toLE 8 de.val.length ++ de.val

/-- Decode a `DataEntry`.  Trailing bytes are ignored, as bincode's
slice-based `deserialize` does not require the buffer to be consumed. -/
def deserDE (b : Bytes) : Option DataEntry :=
  if 8 ≤ b.length then
    let klen := fromLE (b.take 8)
    let rest := b.drop 8
    if klen ≤ rest.length then
      let key := rest.take klen
      let rest2 := rest.drop klen
      if 8 ≤ rest2.length then
        let vlen := fromLE (rest2.take 8)
        let rest3 := rest2.drop 8
        if vlen ≤ rest3.length then some ⟨key, rest3.take vlen⟩ else none
      else none
    else none
  else none

theorem serDE_length (de : DataEntry) :
    (serDE de).length = 16 + de.key.length + de.val.length := by
  simp [serDE, toLE_length]; omega

theorem deserDE_serDE {de : DataEntry} (hk : de.key.length < 2 ^ 64)
    (hv : de.val.length < 2 ^ 64) : deserDE (serDE de) = some de := by
  have l8 : (toLE 8 de.key.length).length = 8 := toLE_length _ _
  have l8' : (toLE 8 de.val.length).length = 8 := toLE_length _ _
  have htake : (serDE de).take 8 = toLE 8 de.key.length := by
    simp [serDE, List.take_append_eq_append_take, l8]
  have hdrop : (serDE de).drop 8 = de.key ++ toLE 8 de.val.length ++ de.val := by
    simp only [serDE, List.append_assoc]
    rw [List.drop_append_eq_append_drop]
    simp [l8]
  have hklen : fromLE ((serDE de).take 8) = de.key.length := by
    rw [htake]; exact fromLE_toLE_of_lt hk
  have hlen : (serDE de).length = 16 + de.key.length + de.val.length :=
    serDE_length de
  rw [deserDE, if_pos (by omega)]
  simp only [hklen, hdrop]
  have hkey : (de.key ++ toLE 8 de.val.length ++ de.val).take de.key.length
      = de.key := by
    simp [List.append_assoc, List.take_append_eq_append_take]
  have hrest2 : (de.key ++ toLE 8 de.val.length ++ de.val).drop de.key.length
      = toLE 8 de.val.length ++ de.val := by
    simp [List.append_assoc, List.drop_append_eq_append_drop]
  rw [if_pos (by simp [l8'])]
  simp only [hkey, hrest2]
  rw [if_pos (by simp [l8'])]
  have htake' : (toLE 8 de.val.length ++ de.val).take 8 = toLE 8 de.val.length := by
    simp [List.take_append_eq_append_take, l8']
  have hdrop' : (toLE 8 de.val.length ++ de.val).drop 8 = de.val := by
    simp [List.drop_append_eq_append_drop, l8']
  rw [htake', hdrop', fromLE_toLE_of_lt hv, if_pos (by simp)]
  simp

/-! ## Errors (`src/error.rs`) -/

/-- Kinds of IO error relevant to the model: `UnexpectedEof` (the only kind
the modelled reads can produce) and everything else (injected writer
faults). -/
inductive IOKind where
  | unexpectedEof
  | otherIoErr
deriving DecidableEq

/-- The error enumeration of `src/error.rs` (`GhalaDbError`). -/
inductive GhalaDbError where
  | IOError (kind : IOKind)
  | BincodeEncodeError
  | BincodeDecodeError
  | SystemTimeError
  | DbPathNotDirectory
  | MissingVlog (n : VlogNum)
  | DataCompressionError
deriving DecidableEq

/-- Modelled from the spec: the `DatabaseOptions` configuration struct with
the closed option set of spec §6.  The `config.rs` present under `src/` is
a stale variant (it lacks the `compact` and `keys_sync_interval` fields
that `src/ghaladb.rs` and `src/keys.rs` read), so the field set follows
the spec; `keys_sync_interval` is the `u128` seconds value multiplied by
`10^9` in `Keys::put`. -/
structure DatabaseOptions where
  max_vlog_size : Nat
  vlog_mem_buf_enabled : Bool
  vlog_mem_buf_size : Nat
  sync : Bool
  compact : Bool
  compress : Bool
  keys_sync_interval : Nat
deriving DecidableEq

/-- The documented defaults (spec §6 and the `TypedBuilder` defaults in
`src/config.rs`). -/
def DatabaseOptions.default : DatabaseOptions :=
  { max_vlog_size := 1000000000
    vlog_mem_buf_enabled := true
    vlog_mem_buf_size := 8000000
    sync := false
    compact := true
    compress := true
    keys_sync_interval := 10 }

/-! ## Vlog: a single append-only segment (`src/vlog.rs`) -/

/-- Per-vlog configuration (`VlogConfig` in `src/vlog.rs`). -/
structure VlogConfig where
  mem_buf_enabled : Bool
  mem_buf_size : Nat
  compress : Bool
deriving DecidableEq

/-- `impl From<&DatabaseOptions> for VlogConfig` (`src/vlog.rs:345-353`).
Note that the `sync` option is not consulted. -/
def VlogConfig.fromOpts (opts : DatabaseOptions) : VlogConfig :=
  { mem_buf_enabled := opts.vlog_mem_buf_enabled
    mem_buf_size := opts.vlog_mem_buf_size
    compress := opts.compress }

/-- One value-log segment (`struct Vlog`).  `disk` is the content of the
backing file; the writer was opened with `append(true)`, so every write
lands at end-of-file.  The buffered reader is not modelled as state: every
read seeks to an absolute position first.  `faults` injects the outcome of
writer IO calls (`true` = the next `write_all` fails).  `encoder`/`decoder`
mirror the `Option<snap::Encoder>`/`Option<snap::Decoder>` fields: the
snappy library is an external collaborator represented by opaque
functions. -/
structure Vlog where
  num : VlogNum
  w_off : Nat
  buf : List (DataPtr × Bytes)
  conf : VlogConfig
  buf_sz : Nat
  active : Bool
  encoder : Option (Bytes → Bytes)
  decoder : Option (Bytes → Option Bytes)
  disk : Bytes
  faults : List Bool

/-- One writer `write_all` call: consume a fault-injection slot; on success
append to the file (the writer is in append mode). -/
def vlogWriteAll (v : Vlog) (data : Bytes) : Except GhalaDbError Unit × Vlog :=
  match v.faults with
  | true :: rest => (.error (.IOError .otherIoErr), { v with faults := rest })
  | false :: rest => (.ok (), { v with disk := v.disk ++ data, faults := rest })
  | [] => (.ok (), { v with disk := v.disk ++ data })

/-- `Vlog::ser`: bincode-encode a `DataEntry`, then compress when the
encoder is present. -/
def vlogSer (v : Vlog) (de : DataEntry) : Bytes :=
  match v.encoder with
  | some c => c (serDE de)
  | none => serDE de

/-- `Vlog::de`: decompress when the decoder is present, then
bincode-decode a `DataEntry`. -/
def vlogDeBytes (v : Vlog) (b : Bytes) : Except GhalaDbError DataEntry :=
  match v.decoder with
  | some d =>
    match d b with
    | some raw =>
      match deserDE raw with
      | some de => .ok de
      | none => .error .BincodeDecodeError
    | none => .error .DataCompressionError
  | none =>
    match deserDE b with
    | some de => .ok de
    | none => .error .BincodeDecodeError

/-- The body of `Vlog::flush`'s loop: write `serDP dp` then the encoded
payload for each buffered frame, in buffer order.  (The `seek` before each
write is a no-op for an append-mode writer; the source asserts that the
writer position already equals `dp.offset - 21`.) -/
def vlogFlushFrames (v : Vlog) : List (DataPtr × Bytes) →
    Except GhalaDbError Unit × Vlog
  | [] => (.ok (), v)
  | (dp, bs) :: rest =>
    match vlogWriteAll v (serDP dp) with
    | (.error e, v') => (.error e, v')
    | (.ok _, v') =>
      match vlogWriteAll v' bs with
      | (.error e, v'') => (.error e, v'')
      | (.ok _, v'') => vlogFlushFrames v'' rest

/-- `Vlog::flush`: write out every buffered frame, then clear the buffer
and its byte counter. -/
def vlogFlush (v : Vlog) : Except GhalaDbError Unit × Vlog :=
  match vlogFlushFrames v v.buf with
  | (.error e, v') => (.error e, v')
  | (.ok _, v') => (.ok (), { v' with buf := [], buf_sz := 0 })

/-- `Vlog::write_to_buf`: serialize, flush first if the buffer would
overflow (and is non-empty), then append the frame to the buffer.  The
pointer's offset is `w_off + 21` and its length is the encoded length as a
`u32`. -/
def vlogWriteToBuf (v : Vlog) (de : DataEntry) :
    Except GhalaDbError DataPtr × Vlog :=
  let offset := v.w_off
  let deBytes := vlogSer v de
  match (if v.buf_sz + deBytes.length > v.conf.mem_buf_size ∧ v.buf ≠ []
      then vlogFlush v else (.ok (), v)) with
  | (.error e, v') => (.error e, v')
  | (.ok _, v') =>
    let dp : DataPtr := ⟨v'.num, offset + DataPtr.serde_sz,
      deBytes.length % 2 ^ 32, v'.conf.compress⟩
    (.ok dp, { v' with
      buf_sz := v'.buf_sz + deBytes.length + DataPtr.serde_sz
      w_off := v'.w_off + DataPtr.serde_sz + deBytes.length
      buf := v'.buf ++ [(dp, deBytes)] })

/-- `Vlog::write_de`: serialize and write one frame (pointer bytes, then
payload) directly to the file. -/
def vlogWriteDe (v : Vlog) (de : DataEntry) :
    Except GhalaDbError DataPtr × Vlog :=
  let deBytes := vlogSer v de
  let dp : DataPtr := ⟨v.num, v.w_off + DataPtr.serde_sz,
    deBytes.length % 2 ^ 32, v.conf.compress⟩
  let dpBytes := serDP dp
  match vlogWriteAll v dpBytes with
  | (.error e, v') => (.error e, v')
  | (.ok _, v') =>
    match vlogWriteAll v' deBytes with
    | (.error e, v'') => (.error e, v'')
    | (.ok _, v'') =>
      (.ok dp, { v'' with w_off := v''.w_off + deBytes.length + dpBytes.length })

/-- `Vlog::put`: buffer the frame when the memory buffer is enabled,
otherwise write it straight to disk and flush the OS writer.  The `sync`
database option plays no part here (see `VlogConfig.fromOpts`). -/
def vlogPut (v : Vlog) (de : DataEntry) : Except GhalaDbError DataPtr × Vlog :=
  if v.conf.mem_buf_enabled then vlogWriteToBuf v de
  else
    match vlogWriteDe v de with
    | (.error e, v') => (.error e, v')
    | (.ok dp, v') => (.ok dp, v')

/-- `Vlog::get_from_buf`: binary-search the offset-sorted buffer by
`dp.offset`; modelled as a first-match scan, which agrees with binary
search on an offset-sorted buffer.  Pure: decoding does not change
observable state. -/
def vlogGetFromBuf (v : Vlog) (dp : DataPtr) :
    Except GhalaDbError (Option DataEntry) :=
  match v.buf.find? (fun it => it.1.offset == dp.offset) with
  | some (_, deBytes) =>
    match vlogDeBytes v deBytes with
    | .ok de => .ok (some de)
    | .error e => .error e
  | none => .ok none

/-- `Vlog::get_from_disk`: seek to `dp.offset`, read exactly `dp.len`
bytes, decode.  A read past end-of-file is an `UnexpectedEof` IO error. -/
def vlogGetFromDisk (v : Vlog) (dp : DataPtr) : Except GhalaDbError DataEntry :=
  if dp.offset + dp.len ≤ v.disk.length then
    vlogDeBytes v ((v.disk.drop dp.offset).take dp.len)
  else .error (.IOError .unexpectedEof)

/-- `Vlog::get`: buffer first, then disk.  The reader seek position is not
observable, so the operation is pure. -/
def vlogGet (v : Vlog) (dp : DataPtr) : Except GhalaDbError DataEntry :=
  match vlogGetFromBuf v dp with
  | .error e => .error e
  | .ok (some de) => .ok de
  | .ok none => vlogGetFromDisk v dp

/-- `Vlog::size`: the logical length is the write offset. -/
def vlogSize (v : Vlog) : Nat := v.w_off

/-- `Vlog::from_path` on a file with contents `disk`: the writer seeks to
end-of-file, so `w_off` starts at the file length; the codec pair is
installed when compression is configured (`Vlog::new`). -/
def vlogFromPath (num : VlogNum) (conf : VlogConfig) (disk : Bytes)
    (snapC : Bytes → Bytes) (snapD : Bytes → Option Bytes) : Vlog :=
  { num := num
    w_off := disk.length
    buf := []
    conf := conf
    buf_sz := 0
    active := true
    encoder := if conf.compress then some snapC else none
    decoder := if conf.compress then some snapD else none
    disk := disk
    faults := [] }

/-! ## VlogIter: the sequential scanner (`src/vlog.rs:278-337`) -/

/-- The sequential reader over one vlog file (`struct VlogIter`): a
buffered reader (file contents plus cursor) and a snappy decoder. -/
structure VlogIter where
  file : Bytes
  pos : Nat
  decoder : Bytes → Option Bytes

/-- `read_exact(n)`: return the next `n` bytes and advance, or fail with
`UnexpectedEof` when fewer than `n` bytes remain (the remaining bytes are
consumed into the scratch buffer). -/
def readExact (it : VlogIter) (n : Nat) : Except GhalaDbError Bytes × VlogIter :=
  if it.pos + n ≤ it.file.length then
    (.ok ((it.file.drop it.pos).take n), { it with pos := it.pos + n })
  else (.error (.IOError .unexpectedEof), { it with pos := it.file.length })

/-- `VlogIter::read_dp` (`src/vlog.rs:302-318`): read exactly 21 bytes and
decode a `DataPtr`.  An `UnexpectedEof` on the header read terminates the
scan cleanly (`Ok(None)`) — whether or not the cursor sat on a frame
boundary; any other error is fatal. -/
def vlogIterReadDp (it : VlogIter) :
    Except GhalaDbError (Option DataPtr) × VlogIter :=
  match readExact it DataPtr.serde_sz with
  | (.error (.IOError .unexpectedEof), it') => (.ok none, it')
  | (.error e, it') => (.error e, it')
  | (.ok buf, it') =>
    match deserDP buf with
    | some dp => (.ok (some dp), it')
    | none => (.error .BincodeDecodeError, it')

/-- `VlogIter::read_de` (`src/vlog.rs:288-301`): read exactly `sz` payload
bytes (a short read here is a fatal IO error), decompress when the frame's
compression flag is set, then decode. -/
def vlogIterReadDe (it : VlogIter) (sz : Nat) (compressed : Bool) :
    Except GhalaDbError DataEntry × VlogIter :=
  match readExact it sz with
  | (.error e, it') => (.error e, it')
  | (.ok buf, it') =>
    if compressed then
      match it'.decoder buf with
      | none => (.error .DataCompressionError, it')
      | some raw =>
        match deserDE raw with
        | some de => (.ok de, it')
        | none => (.error .BincodeDecodeError, it')
    else
      match deserDE buf with
      | some de => (.ok de, it')
      | none => (.error .BincodeDecodeError, it')

/-- `VlogIter::next_entry`: one frame of the lazy sequence. -/
def vlogIterNextEntry (it : VlogIter) :
    Except GhalaDbError (Option (DataPtr × DataEntry)) × VlogIter :=
  match vlogIterReadDp it with
  | (.error e, it') => (.error e, it')
  | (.ok none, it') => (.ok none, it')
  | (.ok (some dp), it') =>
    match vlogIterReadDe it' dp.len dp.compressed with
    | (.error e, it'') => (.error e, it'')
    | (.ok de, it'') => (.ok (some (dp, de)), it'')

theorem readExact_ok {it it' : VlogIter} {n : Nat} {b : Bytes}
    (h : readExact it n = (.ok b, it')) :
    it'.file = it.file ∧ it'.decoder = it.decoder ∧ it'.pos = it.pos + n ∧
      it.pos + n ≤ it.file.length ∧ b = (it.file.drop it.pos).take n := by
  unfold readExact at h
  split at h
  · rename_i hle
    injection h with h1 h2
    injection h1 with h1
    subst h2
    exact ⟨rfl, rfl, rfl, hle, h1.symm⟩
  · injection h with h1 h2
    exact absurd h1 (by simp)

theorem vlogIterReadDp_some {it it' : VlogIter} {dp : DataPtr}
    (h : vlogIterReadDp it = (.ok (some dp), it')) :
    it'.file = it.file ∧ it'.decoder = it.decoder ∧
      it'.pos = it.pos + DataPtr.serde_sz ∧
      it.pos + DataPtr.serde_sz ≤ it.file.length ∧
      deserDP ((it.file.drop it.pos).take DataPtr.serde_sz) = some dp := by
  unfold vlogIterReadDp at h
  rcases hre : readExact it DataPtr.serde_sz with ⟨r, itm⟩
  rw [hre] at h
  match r with
  | .error (.IOError .unexpectedEof) => simp at h
  | .error (.IOError .otherIoErr) => simp at h
  | .error .BincodeEncodeError => simp at h
  | .error .BincodeDecodeError => simp at h
  | .error .SystemTimeError => simp at h
  | .error .DbPathNotDirectory => simp at h
  | .error (.MissingVlog _) => simp at h
  | .error .DataCompressionError => simp at h
  | .ok buf =>
    obtain ⟨hf, hd, hp, hle, hb⟩ := readExact_ok hre
    simp only at h
    rcases hdp : deserDP buf with _ | dp'
    · rw [hdp] at h; simp at h
    · rw [hdp] at h
      injection h with h1 h2
      injection h1 with h1
      injection h1 with h1
      subst h2 hb h1
      exact ⟨hf, hd, hp, hle, hdp⟩

theorem vlogIterReadDe_ok {it it' : VlogIter} {sz : Nat} {c : Bool}
    {de : DataEntry} (h : vlogIterReadDe it sz c = (.ok de, it')) :
    it'.file = it.file ∧ it'.decoder = it.decoder ∧
      it'.pos = it.pos + sz ∧ it.pos + sz ≤ it.file.length := by
  unfold vlogIterReadDe at h
  rcases hre : readExact it sz with ⟨r, itm⟩
  rw [hre] at h
  match r with
  | .error e => simp at h
  | .ok buf =>
    obtain ⟨hf, hd, hp, hle, _⟩ := readExact_ok hre
    simp only at h
    split at h
    · rcases hdec : itm.decoder buf with _ | raw <;> rw [hdec] at h <;>
        simp only at h
      · simp at h
      · rcases hde : deserDE raw with _ | de' <;> rw [hde] at h
        · simp at h
        · injection h with h1 h2
          subst h2
          exact ⟨hf, hd, hp, hle⟩
    · rcases hde : deserDE buf with _ | de' <;> rw [hde] at h
      · simp at h
      · injection h with h1 h2
        subst h2
        exact ⟨hf, hd, hp, hle⟩

theorem vlogIterNextEntry_progress {it it' : VlogIter}
    {x : DataPtr × DataEntry}
    (h : vlogIterNextEntry it = (.ok (some x), it')) :
    it'.file = it.file ∧ it.pos < it'.pos ∧ it'.pos ≤ it.file.length := by
  unfold vlogIterNextEntry at h
  rcases hdp : vlogIterReadDp it with ⟨r, itm⟩
  rw [hdp] at h
  match r with
  | .error e => simp at h
  | .ok none => simp at h
  | .ok (some dp) =>
    simp only at h
    rcases hde : vlogIterReadDe itm dp.len dp.compressed with ⟨r2, itm2⟩
    rw [hde] at h
    match r2 with
    | .error e => simp at h
    | .ok de =>
      injection h with h1 h2
      subst h2
      obtain ⟨hf1, _, hp1, hle1, _⟩ := vlogIterReadDp_some hdp
      obtain ⟨hf2, _, hp2, hle2⟩ := vlogIterReadDe_ok hde
      unfold DataPtr.serde_sz at hp1 hle1
      rw [hf1] at hle2
      refine ⟨by rw [hf2, hf1], by omega, by omega⟩

/-! ## Association maps

`BTreeMap<Bytes, DataPtr>` (the key index) and `BTreeMap<VlogNum, Vlog>`
(the segment roster) are modelled as association lists.  For the key index
no claim depends on traversal order, so `insert` is modelled as
replace-by-reposition (`cons` after `remove`); for the segment map the
minimum-key access of `needs_gc` is load-bearing, so it is kept sorted by
key. -/

/-- Lookup in the key index (`BTreeMap::get`). -/
def mlookup (m : List (Bytes × DataPtr)) (k : Bytes) : Option DataPtr :=
  match m.find? (fun e => e.1 == k) with
  | some e => some e.2
  | none => none

/-- `BTreeMap::remove` on a unique-key map: drop the entry for `k`. -/
def mremove : List (Bytes × DataPtr) → Bytes → List (Bytes × DataPtr)
  | [], _ => []
  | (k', v') :: rest, k => if k == k' then rest else (k', v') :: mremove rest k

/-- `BTreeMap::insert`: map `k` to `v`, replacing any previous value. -/
def minsert (m : List (Bytes × DataPtr)) (k : Bytes) (v : DataPtr) :
    List (Bytes × DataPtr) :=
  (k, v) :: mremove m k

/-- Lookup in the segment map (`BTreeMap::get` / `get_mut`). -/
def alookup (m : List (VlogNum × Vlog)) (k : VlogNum) : Option Vlog :=
  match m.find? (fun e => e.1 == k) with
  | some e => some e.2
  | none => none

/-- Sorted insertion into the segment map (`BTreeMap::insert`,
ascending-key representation). -/
def ains : List (VlogNum × Vlog) → VlogNum → Vlog → List (VlogNum × Vlog)
  | [], k, v => [(k, v)]
  | (k', v') :: rest, k, v =>
    if k < k' then (k, v) :: (k', v') :: rest
    else if k = k' then (k, v) :: rest
    else (k', v') :: ains rest k v

/-- `BTreeMap::remove` for the segment map. -/
def aremove : List (VlogNum × Vlog) → VlogNum → List (VlogNum × Vlog)
  | [], _ => []
  | (k', v') :: rest, k => if k = k' then rest else (k', v') :: aremove rest k

/-- Ascending (strictly) key order of the segment map representation. -/
def ascKeys (m : List (VlogNum × Vlog)) : Prop :=
  List.Chain' (fun a b => a.1 < b.1) m

/-! ## Keys: the in-memory key index (`src/keys.rs`) -/

/-- The key index (`struct Keys`): the map, its snapshot path, the
`magic` wall-clock marker (nanoseconds) and the database options.  The
extra `file` field models the contents of the snapshot file at `path`
(`None` = the file does not exist), and `faults` injects the outcome of
`Keys::sync`'s file IO (`true` = the next snapshot write fails); neither
is part of the serialized struct. -/
structure Keys where
  map : List (Bytes × DataPtr)
  path : Bytes
  magic : Nat
  conf : DatabaseOptions
  file : Option Bytes
  faults : List Bool
deriving DecidableEq

/-- A `u64` length-prefixed byte string (bincode encoding of `Vec<u8>` /
`PathBuf`). -/
def serLenBytes (b : Bytes) : Bytes := toLE 8 b.length ++ b

/-- Bincode encoding of one `bool`. -/
def serBool (b : Bool) : Bytes := [if b then 1 else 0]

/-- Bincode encoding of the map entries, in stored order. -/
def serMapEntries : List (Bytes × DataPtr) → Bytes
  | [] => []
  | (k, dp) :: rest => serLenBytes k ++ serDP dp ++ serMapEntries rest

/-- Bincode encoding of the `BTreeMap`: `u64` entry count, then the
entries. -/
def serMap (m : List (Bytes × DataPtr)) : Bytes :=
  toLE 8 m.length ++ serMapEntries m

/-- Bincode encoding of `DatabaseOptions`, fields in declaration order
(`keys_sync_interval` is a `u128`). -/
def serOpts (c : DatabaseOptions) : Bytes :=
  toLE 8 c.max_vlog_size ++ serBool c.vlog_mem_buf_enabled ++
    toLE 8 c.vlog_mem_buf_size ++ serBool c.sync ++ serBool c.compact ++
    serBool c.compress ++ toLE 16 c.keys_sync_interval

/-- `Dec::ser_raw(&Keys)`: the whole-structure snapshot encoding
(map, path, magic, conf). -/
def serKeys (ks : Keys) : Bytes :=
  serMap ks.map ++ serLenBytes ks.path ++ toLE 16 ks.magic ++ serOpts ks.conf

/-- Parse `w` raw little-endian bytes into an integer. -/
def parseN (w : Nat) (b : Bytes) : Option (Nat × Bytes) :=
  if w ≤ b.length then some (fromLE (b.take w), b.drop w) else none

/-- Parse a `u64` length-prefixed byte string. -/
def parseBytes (b : Bytes) : Option (Bytes × Bytes) :=
  (parseN 8 b).bind fun nr =>
    if nr.1 ≤ nr.2.length then some (nr.2.take nr.1, nr.2.drop nr.1) else none

/-- Parse one `bool` byte. -/
def parseBool (b : Bytes) : Option (Bool × Bytes) :=
  match b with
  | 0 :: rest => some (false, rest)
  | 1 :: rest => some (true, rest)
  | _ => none

/-- Parse one serialized `DataPtr` (21 bytes). -/
def parseDP (b : Bytes) : Option (DataPtr × Bytes) :=
  (deserDP b).map fun dp => (dp, b.drop 21)

/-- Parse `n` map entries. -/
def parseEntries : Nat → Bytes → Option (List (Bytes × DataPtr) × Bytes)
  | 0, b => some ([], b)
  | n + 1, b =>
    (parseBytes b).bind fun kr =>
      (parseDP kr.2).bind fun dr =>
        (parseEntries n dr.2).map fun lr => ((kr.1, dr.1) :: lr.1, lr.2)

/-- Parse a serialized `DatabaseOptions`. -/
def parseOpts (b : Bytes) : Option (DatabaseOptions × Bytes) :=
  (parseN 8 b).bind fun f1 =>
    (parseBool f1.2).bind fun f2 =>
      (parseN 8 f2.2).bind fun f3 =>
        (parseBool f3.2).bind fun f4 =>
          (parseBool f4.2).bind fun f5 =>
            (parseBool f5.2).bind fun f6 =>
              (parseN 16 f6.2).map fun f7 =>
                (⟨f1.1, f2.1, f3.1, f4.1, f5.1, f6.1, f7.1⟩, f7.2)

/-- `Dec::deser_raw::<Keys>`: decode the whole structure from the snapshot
bytes.  Trailing bytes are ignored, matching `decode_from_slice`.  The
`file` and `faults` fields are not part of the serialized struct. -/
def deserKeys (b : Bytes) : Option Keys :=
  (parseN 8 b).bind fun nr =>
    (parseEntries nr.1 nr.2).bind fun mr =>
      (parseBytes mr.2).bind fun pr =>
        (parseN 16 pr.2).bind fun gr =>
          (parseOpts gr.2).map fun cr =>
            ⟨mr.1, pr.1, gr.1, cr.1, none, []⟩

/-- `Keys::new`: an empty index with marker 0. -/
def keysNew (path : Bytes) (conf : DatabaseOptions) : Keys :=
  { map := [], path := path, magic := 0, conf := conf, file := none,
    faults := [] }

/-- `Keys::from_path` (`src/keys.rs:43-57`): when the snapshot file exists
its contents are read whole and decoded — the decoded struct carries its
own `path` and `conf`, so the arguments are ignored; otherwise a fresh
empty `Keys` is built from the arguments.  `file` is the current contents
of the file at the argument path. -/
def keysFromPath (file : Option Bytes) (path : Bytes) (conf : DatabaseOptions) :
    Except GhalaDbError Keys :=
  match file with
  | some bytes =>
    match deserKeys bytes with
    | some ks => .ok { ks with file := some bytes }
    | none => .error .BincodeDecodeError
  | none => .ok (keysNew path conf)

/-- `Keys::get`: a pure map lookup (the `&mut` receiver mutates nothing). -/
def keysGet (ks : Keys) (k : Bytes) : Option DataPtr := mlookup ks.map k

/-- `Keys::delete` (`src/keys.rs:59-63`): remove the mapping; a missing
key is not an error — the result is unconditionally `Ok`. -/
def keysDelete (ks : Keys) (k : Bytes) : Except GhalaDbError Unit × Keys :=
  (.ok (), { ks with map := mremove ks.map k })

/-- `Keys::sync`: overwrite the snapshot file with the whole-structure
encoding.  The file open/write IO can fail; a fault-injection slot
(`true` = the next write fails, leaving the file as it was) models that
path. -/
def keysSync (ks : Keys) : Except GhalaDbError Unit × Keys :=
  match ks.faults with
  | true :: rest => (.error (.IOError .otherIoErr), { ks with faults := rest })
  | false :: rest =>
    (.ok (), { ks with file := some (serKeys ks), faults := rest })
  | [] => (.ok (), { ks with file := some (serKeys ks) })

/-- The tail of `Keys::put` after the map insert: read the clock
(`Self::time()?` — a failed reading aborts with `SystemTimeError`); if the
elapsed nanoseconds since the `magic` marker exceed
`keys_sync_interval * 10^9`, write a snapshot (`self.sync()?` — an IO
failure aborts); finally set the marker to a second clock reading.
`clock` is the wall-clock oracle and `i` the number of readings taken so
far; the returned index counts the readings consumed. -/
def keysPutTail (ks : Keys) (clock : Nat → Option Nat) (i : Nat) :
    Except GhalaDbError Unit × Keys × Nat :=
  match clock i with
  | none => (.error .SystemTimeError, ks, i + 1)
  | some t1 =>
    match (if t1 - ks.magic > ks.conf.keys_sync_interval * 10 ^ 9
        then keysSync ks else (.ok (), ks)) with
    | (.error e, ks1) => (.error e, ks1, i + 1)
    | (.ok _, ks1) =>
      match clock (i + 1) with
      | none => (.error .SystemTimeError, ks1, i + 2)
      | some t2 => (.ok (), { ks1 with magic := t2 }, i + 2)

/-- `Keys::put` (`src/keys.rs:70-80`): insert first — the insert survives
every later failure of this fallible operation — then run the clock
reading / conditional snapshot / marker update tail.  The marker is
updated on every successful put, synced or not. -/
def keysPut (ks : Keys) (k : Bytes) (dp : DataPtr) (clock : Nat → Option Nat)
    (i : Nat) : Except GhalaDbError Unit × Keys × Nat :=
  keysPutTail { ks with map := minsert ks.map k dp } clock i

/-- `Keys::sync` never touches the map, the options, the marker or the
path (it only writes the snapshot file and consumes a fault slot). -/
theorem keysSync_fields (ks : Keys) :
    (keysSync ks).2.map = ks.map ∧ (keysSync ks).2.conf = ks.conf ∧
    (keysSync ks).2.magic = ks.magic ∧ (keysSync ks).2.path = ks.path := by
  unfold keysSync
  rcases ks.faults with _ | ⟨_ | _, rest⟩ <;> exact ⟨rfl, rfl, rfl, rfl⟩

/-- The tail of `Keys::put` never touches the map or the options,
whatever its outcome. -/
theorem keysPutTail_fields (ks : Keys) (clock : Nat → Option Nat) (i : Nat) :
    (keysPutTail ks clock i).2.1.map = ks.map ∧
    (keysPutTail ks clock i).2.1.conf = ks.conf := by
  unfold keysPutTail
  rcases clock i with _ | t1
  · exact ⟨rfl, rfl⟩
  · simp only
    rcases hs : (if t1 - ks.magic > ks.conf.keys_sync_interval * 10 ^ 9
        then keysSync ks else (.ok (), ks)) with ⟨r1, ks1⟩
    have h1 : ks1.map = ks.map ∧ ks1.conf = ks.conf := by
      split at hs
      · have hks1 : ks1 = (keysSync ks).2 := by
          rw [hs]
        rw [hks1]
        exact ⟨(keysSync_fields ks).1, (keysSync_fields ks).2.1⟩
      · injection hs with hs1 hs2
        rw [← hs2]
        exact ⟨rfl, rfl⟩
    match r1 with
    | .error e => exact h1
    | .ok u =>
      simp only
      rcases clock (i + 1) with _ | t2
      · exact h1
      · exact h1

/-- The whole of `Keys::put` on the success path: both clock readings
succeed and no snapshot-write fault is pending, so the result is `Ok`,
the marker becomes the second reading, the map is untouched past the
insert, and the snapshot file is rewritten exactly when the first reading
minus the old marker exceeds the interval. -/
theorem keysPutTail_ok {ks : Keys} {clock : Nat → Option Nat} {i : Nat}
    {t1 t2 : Nat} (ht1 : clock i = some t1) (ht2 : clock (i + 1) = some t2)
    (hfl : ks.faults = []) :
    (keysPutTail ks clock i).1 = .ok () ∧
    (keysPutTail ks clock i).2.1.magic = t2 ∧
    (keysPutTail ks clock i).2.1.map = ks.map ∧
    (keysPutTail ks clock i).2.1.file =
      (if t1 - ks.magic > ks.conf.keys_sync_interval * 10 ^ 9
        then some (serKeys ks) else ks.file) := by
  have hsync : keysSync ks = (.ok (), { ks with file := some (serKeys ks) }) := by
    unfold keysSync
    rw [hfl]
  unfold keysPutTail
  rw [ht1]
  simp only
  by_cases hc : t1 - ks.magic > ks.conf.keys_sync_interval * 10 ^ 9
  · rw [if_pos hc, hsync]
    simp only
    rw [ht2]
    rw [if_pos hc]
    exact ⟨rfl, rfl, rfl, rfl⟩
  · rw [if_neg hc]
    simp only
    rw [ht2]
    rw [if_neg hc]
    exact ⟨rfl, rfl, rfl, rfl⟩

/-- `Keys::put` performs the insert first: whatever the outcome, the
resulting map carries the new mapping. -/
theorem keysPut_map (ks : Keys) (k : Bytes) (dp : DataPtr)
    (clock : Nat → Option Nat) (i : Nat) :
    (keysPut ks k dp clock i).2.1.map = minsert ks.map k dp :=
  (keysPutTail_fields _ clock i).1

/-- `Keys::put` never touches the stored options. -/
theorem keysPut_conf (ks : Keys) (k : Bytes) (dp : DataPtr)
    (clock : Nat → Option Nat) (i : Nat) :
    (keysPut ks k dp clock i).2.1.conf = ks.conf :=
  (keysPutTail_fields _ clock i).2

/-! ## Janitor: the inline garbage collector (`src/gc.rs`) -/

/-- The GC worker (`struct Janitor`): the retiring segment's number and a
sequential reader over that segment's file. -/
structure Janitor where
  vnum : VlogNum
  vlog_iter : VlogIter

/-- `Janitor::sweep` (`src/gc.rs:47-67`): advance frame by frame; skip a
frame whose key is absent from the index or maps to a different pointer;
return the first frame whose index pointer equals the frame's own pointer;
return `None` at end of segment. -/
def sweepIter (it : VlogIter) (ks : Keys) :
    Except GhalaDbError (Option DataEntry) × VlogIter :=
  match h : vlogIterNextEntry it with
  | (.error e, it') => (.error e, it')
  | (.ok none, it') => (.ok none, it')
  | (.ok (some (dp, de)), it') =>
    match keysGet ks de.key with
    | none => sweepIter it' ks
    | some cur => if cur = dp then (.ok (some de), it') else sweepIter it' ks
termination_by it.file.length - it.pos
decreasing_by
  all_goals
    obtain ⟨hf, hlt, hle⟩ := vlogIterNextEntry_progress h
    rw [hf]
    omega

/-- `Janitor::sweep`, at the worker level. -/
def sweep (j : Janitor) (ks : Keys) :
    Except GhalaDbError (Option DataEntry) × Janitor :=
  match sweepIter j.vlog_iter ks with
  | (r, it') => (r, { j with vlog_iter := it' })

/-! ## VlogsMan: the multi-segment manager (`src/vlog.rs:359-488`) -/

/-- Bincode encoding of the roster `VlogsInfo { vlogs: Vec<u64> }`. -/
def serVlogsInfo (ns : List VlogNum) : Bytes :=
  toLE 8 ns.length ++ (ns.map (toLE 8)).flatten

/-- The segment manager (`struct VlogsMan`): the segment map (ascending by
number), the tail sequence number, the options, the `vlog_info` roster
file contents, and the snappy codec pair handed to every segment it
opens. -/
structure VlogsMan where
  vlogs : List (VlogNum × Vlog)
  seq : VlogNum
  conf : DatabaseOptions
  infoFile : Option Bytes
  snapC : Bytes → Bytes
  snapD : Bytes → Option Bytes

/-- `VlogsMan::new` with no roster file: start empty with
`seq = VlogNum::MIN = 0`. -/
def manNew (conf : DatabaseOptions) (snapC : Bytes → Bytes)
    (snapD : Bytes → Option Bytes) : VlogsMan :=
  { vlogs := [], seq := 0, conf := conf, infoFile := none,
    snapC := snapC, snapD := snapD }

/-- `VlogsMan::create_new_vlog`: open a fresh (empty) segment file named
after `seq`. -/
def manCreateNewVlog (m : VlogsMan) : Vlog :=
  vlogFromPath m.seq (VlogConfig.fromOpts m.conf) [] m.snapC m.snapD

/-- `VlogsMan::get_tail` (`src/vlog.rs:459-473`): return the tail segment's
number, rolling over to a fresh segment when the tail exceeds
`max_vlog_size` (the old tail is flushed first, and on a flush error the
partially mutated tail stays in the map). -/
def manGetTail (m : VlogsMan) : Except GhalaDbError VlogNum × VlogsMan :=
  match alookup m.vlogs m.seq with
  | some vlog =>
    if vlogSize vlog > m.conf.max_vlog_size then
      match vlogFlush vlog with
      | (.error e, vlog') =>
        (.error e, { m with vlogs := ains m.vlogs m.seq vlog' })
      | (.ok _, vlog') =>
        let m1 : VlogsMan :=
          { m with vlogs := ains m.vlogs m.seq vlog', seq := m.seq + 1 }
        (.ok m1.seq, { m1 with vlogs := ains m1.vlogs m1.seq (manCreateNewVlog m1) })
    else (.ok m.seq, m)
  | none =>
    (.ok m.seq, { m with vlogs := ains m.vlogs m.seq (manCreateNewVlog m) })

/-- `VlogsMan::put`: delegate to the tail segment. -/
def manPut (m : VlogsMan) (de : DataEntry) : Except GhalaDbError DataPtr × VlogsMan :=
  match manGetTail m with
  | (.error e, m') => (.error e, m')
  | (.ok tn, m') =>
    match alookup m'.vlogs tn with
    | none => (.error (.MissingVlog tn), m')
    | some v =>
      match vlogPut v de with
      | (r, v') => (r, { m' with vlogs := ains m'.vlogs tn v' })

/-- `VlogsMan::get`: route the pointer to its segment, or fail with
`MissingVlog`.  Pure for the same reason as `vlogGet`. -/
def manGet (m : VlogsMan) (dp : DataPtr) : Except GhalaDbError DataEntry :=
  match alookup m.vlogs dp.vlog with
  | none => .error (.MissingVlog dp.vlog)
  | some v => vlogGet v dp

/-- `VlogsMan::drop_vlog`: remove the segment from the map (deactivation
and file removal happen on handle drop and are not modelled further). -/
def manDropVlog (m : VlogsMan) (n : VlogNum) : VlogsMan :=
  { m with vlogs := aremove m.vlogs n }

/-- `VlogsMan::needs_gc` (`src/vlog.rs:440-448`): when more than three
segments exist, the candidate is the smallest-numbered segment. -/
def manNeedsGc (m : VlogsMan) : Option VlogNum :=
  if 3 < m.vlogs.length then m.vlogs.head?.map (·.1) else none

/-- Flush every segment in map order, stopping at the first error
(`VlogsMan::sync`'s loop). -/
def manFlushAll (m : VlogsMan) :
    List (VlogNum × Vlog) → Except GhalaDbError Unit × VlogsMan
  | [] => (.ok (), m)
  | (n, _) :: rest =>
    match alookup m.vlogs n with
    | none => manFlushAll m rest
    | some v =>
      match vlogFlush v with
      | (.error e, v') => (.error e, { m with vlogs := ains m.vlogs n v' })
      | (.ok _, v') => manFlushAll { m with vlogs := ains m.vlogs n v' } rest

/-- `VlogsMan::sync`: write the roster to `vlog_info`, then flush every
segment's write buffer. -/
def manSync (m : VlogsMan) : Except GhalaDbError Unit × VlogsMan :=
  let m1 := { m with infoFile := some (serVlogsInfo (m.vlogs.map (·.1))) }
  manFlushAll m1 m1.vlogs

/-! ## GhalaDb: the engine (`src/ghaladb.rs`)

The engine operates on opaque byte strings: the generic key/value façade
(`Dec::ser_raw` of user types) is the out-of-scope adapter layer of spec
§9, so keys and values here are the serialized bytes it produces. -/

/-- The engine state (`struct GhalaDb`), plus the wall-clock oracle
consumed by `Keys::time` (`clock i` is the outcome of the `i`-th reading;
`none` means the reading fails) and the count of readings taken so far. -/
structure GhalaDb where
  keys : Keys
  vlogsMan : VlogsMan
  gc : Option Janitor
  opts : DatabaseOptions
  clock : Nat → Option Nat
  clockIdx : Nat

/-- The vlog-write/index-update core of `GhalaDb::put_raw`
(`src/ghaladb.rs:121-136`): write the `DataEntry` to the vlog manager,
then store the returned pointer in the key index (`Keys::put`, which
consumes wall-clock readings and is itself fallible — on its error paths
the insert and the consumed readings survive).  This is the whole of
`put_raw` when `from_gc` is true; `put_raw` with `from_gc == false`
additionally advances the GC (see `gcStep`/`enginePut`). -/
def putRawCore (db : GhalaDb) (k v : Bytes) : Except GhalaDbError Unit × GhalaDb :=
  let de : DataEntry := ⟨k, v⟩
  match manPut db.vlogsMan de with
  | (.error e, vm') => (.error e, { db with vlogsMan := vm' })
  | (.ok dp, vm') =>
    match keysPut db.keys k dp db.clock db.clockIdx with
    | (r, ks', n) =>
      (r, { db with vlogsMan := vm', keys := ks', clockIdx := n })

/-- `GhalaDb::gc` (`src/ghaladb.rs:161-181`): skipped when `compact` is
off; otherwise either sweep the active janitor (re-inserting a live entry
through the GC-safe `put_raw(.., from_gc=true)` path, or dropping the
drained segment), or look for a new candidate and open a janitor over its
file on disk. -/
def gcStep (db : GhalaDb) : Except GhalaDbError Unit × GhalaDb :=
  if db.opts.compact = false then (.ok (), db)
  else
    match db.gc with
    | some j =>
      match sweep j db.keys with
      | (.error e, j') => (.error e, { db with gc := some j' })
      | (.ok (some de), j') => putRawCore { db with gc := some j' } de.key de.val
      | (.ok none, j') =>
        (.ok (), { db with vlogsMan := manDropVlog db.vlogsMan j'.vnum, gc := none })
    | none =>
      match manNeedsGc db.vlogsMan with
      | some vnum =>
        let file := ((alookup db.vlogsMan.vlogs vnum).map (·.disk)).getD []
        (.ok (), { db with
          gc := some ⟨vnum, ⟨file, 0, db.vlogsMan.snapD⟩⟩ })
      | none => (.ok (), db)

/-- `GhalaDb::put` / `put_raw(.., from_gc=false)`: the core write followed
by one GC step. -/
def enginePut (db : GhalaDb) (k v : Bytes) : Except GhalaDbError Unit × GhalaDb :=
  match putRawCore db k v with
  | (.error e, db') => (.error e, db')
  | (.ok _, db') => gcStep db'

/-- `GhalaDb::delete` (`src/ghaladb.rs:77-87`): remove the key from the
index, then advance the GC one step. -/
def engineDelete (db : GhalaDb) (k : Bytes) : Except GhalaDbError Unit × GhalaDb :=
  match keysDelete db.keys k with
  | (.error e, ks') => (.error e, { db with keys := ks' })
  | (.ok _, ks') => gcStep { db with keys := ks' }

/-- `GhalaDb::get` (`src/ghaladb.rs:94-108`): resolve the key through the
index and fetch the entry's value from the vlog manager.  Pure. -/
def engineGet (db : GhalaDb) (k : Bytes) : Except GhalaDbError (Option Bytes) :=
  match keysGet db.keys k with
  | some dp =>
    match manGet db.vlogsMan dp with
    | .error e => .error e
    | .ok de => .ok (some de.val)
  | none => .ok none

/-- `GhalaDb::new` on a fresh directory (no roster, no keys snapshot). -/
def engineNew (opts : DatabaseOptions) (keysPath : Bytes)
    (snapC : Bytes → Bytes) (snapD : Bytes → Option Bytes)
    (clock : Nat → Option Nat) : GhalaDb :=
  { keys := keysNew keysPath opts
    vlogsMan := manNew opts snapC snapD
    gc := none
    opts := opts
    clock := clock
    clockIdx := 0 }

/-! ## Frame layout of a vlog file

A vlog file is a sequence of frames, each the 21-byte serialized
`DataPtr` followed by the encoded `DataEntry` payload; the pointer's
`offset` is the absolute file position of the payload. -/

/-- The bytes of one frame. -/
def frameBytes (f : DataPtr × Bytes) : Bytes := serDP f.1 ++ f.2

/-- The bytes of a frame sequence. -/
def framesBytes : List (DataPtr × Bytes) → Bytes
  | [] => []
  | f :: fs => frameBytes f ++ framesBytes fs

/-- The total size of a frame sequence. -/
def framesSize : List (DataPtr × Bytes) → Nat
  | [] => 0
  | (_, p) :: fs => 21 + p.length + framesSize fs

/-- The frames are laid out consecutively from file position `base`, for
segment `n` with compression flag `c`: each pointer's offset is the
position right after its own 21-byte header, and its length is the
payload length as a `u32`. -/
def AlignedAt (n : VlogNum) (c : Bool) : Nat → List (DataPtr × Bytes) → Prop
  | _, [] => True
  | base, (dp, p) :: fs =>
    dp.vlog = n ∧ dp.compressed = c ∧ dp.offset = base + 21 ∧
      dp.len = p.length % 2 ^ 32 ∧ AlignedAt n c (base + 21 + p.length) fs

/-- The structural invariant of a `Vlog` relative to the frames `fsD`
already on disk: the file is exactly those frames, disk frames followed by
buffered frames tile the offset space from 0, the write offset is the
total size, and a disabled memory buffer is empty. -/
def VlogInv (v : Vlog) (fsD : List (DataPtr × Bytes)) : Prop :=
  v.disk = framesBytes fsD ∧
    AlignedAt v.num v.conf.compress 0 (fsD ++ v.buf) ∧
    v.w_off = framesSize (fsD ++ v.buf) ∧
    (v.conf.mem_buf_enabled = false → v.buf = [])

theorem framesBytes_append (fs gs : List (DataPtr × Bytes)) :
    framesBytes (fs ++ gs) = framesBytes fs ++ framesBytes gs := by
  induction fs with
  | nil => simp [framesBytes]
  | cons f fs ih => simp [framesBytes, ih]

theorem framesSize_append (fs gs : List (DataPtr × Bytes)) :
    framesSize (fs ++ gs) = framesSize fs + framesSize gs := by
  induction fs with
  | nil => simp [framesSize]
  | cons f fs ih =>
    rcases f with ⟨dp, p⟩
    simp [framesSize, ih]
    omega

theorem length_framesBytes (fs : List (DataPtr × Bytes)) :
    (framesBytes fs).length = framesSize fs := by
  induction fs with
  | nil => rfl
  | cons f fs ih =>
    rcases f with ⟨dp, p⟩
    simp [framesBytes, framesSize, frameBytes, serDP_length, ih]
    omega

theorem alignedAt_append {n : VlogNum} {c : Bool} {base : Nat}
    {fs gs : List (DataPtr × Bytes)} :
    AlignedAt n c base (fs ++ gs) ↔
      AlignedAt n c base fs ∧ AlignedAt n c (base + framesSize fs) gs := by
  induction fs generalizing base with
  | nil => simp [AlignedAt, framesSize]
  | cons f fs ih =>
    rcases f with ⟨dp, p⟩
    simp only [List.cons_append, AlignedAt, framesSize, List.append_eq, ih]
    constructor
    · rintro ⟨h1, h2, h3, h4, h5, h6⟩
      refine ⟨⟨h1, h2, h3, h4, h5⟩, ?_⟩
      have : base + (21 + p.length + framesSize fs) =
          base + 21 + p.length + framesSize fs := by omega
      rw [this]
      exact h6
    · rintro ⟨⟨h1, h2, h3, h4, h5⟩, h6⟩
      refine ⟨h1, h2, h3, h4, h5, ?_⟩
      have : base + 21 + p.length + framesSize fs =
          base + (21 + p.length + framesSize fs) := by omega
      rw [this]
      exact h6

theorem alignedAt_bounds {n : VlogNum} {c : Bool} {base : Nat}
    {fs : List (DataPtr × Bytes)} {dp : DataPtr} {p : Bytes}
    (hal : AlignedAt n c base fs) (hm : (dp, p) ∈ fs) :
    base + 21 ≤ dp.offset ∧ dp.offset + p.length ≤ base + framesSize fs ∧
      dp.vlog = n ∧ dp.compressed = c ∧ dp.len = p.length % 2 ^ 32 := by
  induction fs generalizing base with
  | nil => simp at hm
  | cons f fs ih =>
    rcases f with ⟨dp₀, p₀⟩
    obtain ⟨h1, h2, h3, h4, h5⟩ := hal
    rcases List.mem_cons.mp hm with heq | hmem
    · obtain ⟨hdp, hp⟩ := Prod.mk.injEq .. ▸ heq
      subst hdp hp
      refine ⟨by omega, ?_, h1, h2, h4⟩
      simp [framesSize]
      omega
    · obtain ⟨b1, b2, b3, b4, b5⟩ := ih h5 hmem
      refine ⟨by omega, ?_, b3, b4, b5⟩
      simp [framesSize]
      omega

theorem alignedAt_slice {n : VlogNum} {c : Bool} {base : Nat}
    {fs : List (DataPtr × Bytes)} {dp : DataPtr} {p : Bytes}
    (hal : AlignedAt n c base fs) (hm : (dp, p) ∈ fs) :
    ((framesBytes fs).drop (dp.offset - 21 - base)).take 21 = serDP dp ∧
      ((framesBytes fs).drop (dp.offset - base)).take p.length = p := by
  induction fs generalizing base with
  | nil => simp at hm
  | cons f fs ih =>
    rcases f with ⟨dp₀, p₀⟩
    obtain ⟨h1, h2, h3, h4, h5⟩ := hal
    rcases List.mem_cons.mp hm with heq | hmem
    · obtain ⟨hdp, hp⟩ := Prod.mk.injEq .. ▸ heq
      subst hdp hp
      have hoff1 : dp.offset - 21 - base = 0 := by omega
      have hoff2 : dp.offset - base = 21 := by omega
      rw [hoff1, hoff2]
      constructor
      · simp only [framesBytes, frameBytes, List.drop_zero, List.append_assoc]
        rw [List.take_append_eq_append_take, serDP_length]
        simp [serDP_length]
      · simp only [framesBytes, frameBytes, List.append_assoc]
        rw [List.drop_append_eq_append_drop, serDP_length]
        simp only [show (21 : Nat) - 21 = 0 from rfl, List.drop_zero]
        have : (serDP dp).drop 21 = [] := by
          apply List.drop_eq_nil_of_le
          rw [serDP_length]
        rw [this, List.nil_append, List.take_append_eq_append_take]
        simp
    · obtain ⟨b1, _, _, _, _⟩ := alignedAt_bounds h5 hmem
      obtain ⟨ih1, ih2⟩ := ih h5 hmem
      have hlen : (frameBytes (dp₀, p₀)).length = 21 + p₀.length := by
        simp [frameBytes, serDP_length]
      constructor
      · have hidx : dp.offset - 21 - base =
            (frameBytes (dp₀, p₀)).length + (dp.offset - 21 - (base + 21 + p₀.length)) := by
          rw [hlen]; omega
        rw [framesBytes, hidx, List.drop_append]
        exact ih1
      · have hidx : dp.offset - base =
            (frameBytes (dp₀, p₀)).length + (dp.offset - (base + 21 + p₀.length)) := by
          rw [hlen]; omega
        rw [framesBytes, hidx, List.drop_append]
        exact ih2

theorem alignedAt_find {n : VlogNum} {c : Bool} {base : Nat}
    {fs : List (DataPtr × Bytes)} {dp : DataPtr} {p : Bytes}
    (hal : AlignedAt n c base fs) (hm : (dp, p) ∈ fs) :
    fs.find? (fun it => it.1.offset == dp.offset) = some (dp, p) := by
  induction fs generalizing base with
  | nil => simp at hm
  | cons f fs ih =>
    rcases f with ⟨dp₀, p₀⟩
    obtain ⟨h1, h2, h3, h4, h5⟩ := hal
    rcases List.mem_cons.mp hm with heq | hmem
    · obtain ⟨hdp, hp⟩ := Prod.mk.injEq .. ▸ heq
      subst hdp hp
      simp [List.find?]
    · obtain ⟨b1, _, _, _, _⟩ := alignedAt_bounds h5 hmem
      have hne : dp₀.offset ≠ dp.offset := by omega
      rw [List.find?_cons_of_neg _ (by simpa using hne)]
      exact ih h5 hmem

theorem alignedAt_find_none {n : VlogNum} {c : Bool} {base : Nat}
    {fs : List (DataPtr × Bytes)} {o : Nat}
    (hal : AlignedAt n c base fs) (ho : o < base + 21) :
    fs.find? (fun it => it.1.offset == o) = none := by
  induction fs generalizing base with
  | nil => rfl
  | cons f fs ih =>
    rcases f with ⟨dp₀, p₀⟩
    obtain ⟨h1, h2, h3, h4, h5⟩ := hal
    rw [List.find?_cons_of_neg _ (by simp; omega)]
    exact ih h5 (by omega)

/-! ## Vlog operation lemmas -/

theorem vlogWriteAll_ok {v v' : Vlog} {data : Bytes} {u : Unit}
    (h : vlogWriteAll v data = (.ok u, v')) :
    v' = { v with disk := v.disk ++ data, faults := v.faults.tail } := by
  unfold vlogWriteAll at h
  match hf : v.faults with
  | true :: rest => rw [hf] at h; simp at h
  | false :: rest =>
    rw [hf] at h
    injection h with h1 h2
    subst h2
    rfl
  | [] =>
    rw [hf] at h
    injection h with h1 h2
    subst h2
    rfl

theorem vlogFlushFrames_ok {fs : List (DataPtr × Bytes)} {v v' : Vlog} {u : Unit}
    (h : vlogFlushFrames v fs = (.ok u, v')) :
    v'.disk = v.disk ++ framesBytes fs ∧ v'.num = v.num ∧ v'.w_off = v.w_off ∧
      v'.buf = v.buf ∧ v'.buf_sz = v.buf_sz ∧ v'.conf = v.conf ∧
      v'.encoder = v.encoder ∧ v'.decoder = v.decoder ∧ v'.active = v.active := by
  induction fs generalizing v with
  | nil =>
    unfold vlogFlushFrames at h
    injection h with h1 h2
    subst h2
    simp [framesBytes]
  | cons f fs ih =>
    rcases f with ⟨dp, bs⟩
    unfold vlogFlushFrames at h
    rcases hw1 : vlogWriteAll v (serDP dp) with ⟨r1, v1⟩
    rw [hw1] at h
    match r1 with
    | .error e => simp at h
    | .ok _ =>
      simp only at h
      rcases hw2 : vlogWriteAll v1 bs with ⟨r2, v2⟩
      rw [hw2] at h
      match r2 with
      | .error e => simp at h
      | .ok _ =>
        simp only at h
        have e1 := vlogWriteAll_ok hw1
        have e2 := vlogWriteAll_ok hw2
        obtain ⟨d3, rest⟩ := ih h
        subst e1 e2
        refine ⟨?_, rest.1, rest.2.1, rest.2.2.1, rest.2.2.2.1,
          rest.2.2.2.2.1, rest.2.2.2.2.2.1, rest.2.2.2.2.2.2.1,
          rest.2.2.2.2.2.2.2⟩
        simp only at d3
        rw [d3]
        simp [framesBytes, frameBytes]

theorem vlogFlush_ok {v v' : Vlog} {u : Unit}
    (h : vlogFlush v = (.ok u, v')) :
    v'.disk = v.disk ++ framesBytes v.buf ∧ v'.buf = [] ∧ v'.buf_sz = 0 ∧
      v'.num = v.num ∧ v'.w_off = v.w_off ∧ v'.conf = v.conf ∧
      v'.encoder = v.encoder ∧ v'.decoder = v.decoder ∧ v'.active = v.active := by
  unfold vlogFlush at h
  rcases hff : vlogFlushFrames v v.buf with ⟨r, vm⟩
  rw [hff] at h
  match r with
  | .error e => simp at h
  | .ok _ =>
    injection h with h1 h2
    obtain ⟨d, n, w, _, _, c, enc, dec, a⟩ := vlogFlushFrames_ok hff
    subst h2
    exact ⟨d, rfl, rfl, n, w, c, enc, dec, a⟩

theorem vlogInv_flush {v v' : Vlog} {fsD : List (DataPtr × Bytes)} {u : Unit}
    (hinv : VlogInv v fsD) (h : vlogFlush v = (.ok u, v')) :
    VlogInv v' (fsD ++ v.buf) := by
  obtain ⟨hdisk, hal, hw, hmb⟩ := hinv
  obtain ⟨d, b, _, n, w, c, _, _, _⟩ := vlogFlush_ok h
  refine ⟨?_, ?_, ?_, ?_⟩
  · rw [d, hdisk, framesBytes_append]
  · rw [n, c, b, List.append_nil]
    exact hal
  · rw [w, hw, b, List.append_nil]
  · intro _
    exact b

/-- A successful `Vlog::put` appends exactly one frame — `(dp, enc)` where
`enc` is the encoded entry and `dp` the returned pointer — to the frame
sequence, preserving the structural invariant. -/
theorem vlogPut_ok {v v' : Vlog} {de : DataEntry} {dp : DataPtr}
    {fsD : List (DataPtr × Bytes)}
    (hinv : VlogInv v fsD) (h : vlogPut v de = (.ok dp, v')) :
    ∃ fsD', VlogInv v' fsD' ∧
      fsD' ++ v'.buf = (fsD ++ v.buf) ++ [(dp, vlogSer v de)] ∧
      dp = ⟨v.num, v.w_off + 21, (vlogSer v de).length % 2 ^ 32,
        v.conf.compress⟩ ∧
      v'.num = v.num ∧ v'.conf = v.conf ∧ v'.encoder = v.encoder ∧
      v'.decoder = v.decoder ∧
      v'.w_off = v.w_off + 21 + (vlogSer v de).length := by
  obtain ⟨hdisk, hal, hw, hmb⟩ := hinv
  unfold vlogPut at h
  split at h
  · -- buffered path: write_to_buf
    rename_i hmbe
    unfold vlogWriteToBuf at h
    dsimp only at h
    rcases hfl : (if v.buf_sz + (vlogSer v de).length > v.conf.mem_buf_size ∧
        v.buf ≠ [] then vlogFlush v else (.ok (), v)) with ⟨rf, vf⟩
    rw [hfl] at h
    match rf with
    | .error e => simp at h
    | .ok _ =>
      simp only at h
      injection h with h1 h2
      injection h1 with h1
      subst h2
      subst h1
      -- vf is either v itself (no inner flush) or the flushed v
      have hvf : (vf = v ∧ VlogInv vf fsD) ∨
          (vf.buf = [] ∧ vf.num = v.num ∧ vf.w_off = v.w_off ∧
            vf.conf = v.conf ∧ vf.encoder = v.encoder ∧
            vf.decoder = v.decoder ∧ VlogInv vf (fsD ++ v.buf)) := by
        split at hfl
        · right
          have hfl' : vlogFlush v = (.ok (), vf) := by rw [hfl]
          obtain ⟨d, b, _, n, w, c, enc, dec, _⟩ := vlogFlush_ok hfl'
          exact ⟨b, n, w, c, enc, dec, vlogInv_flush ⟨hdisk, hal, hw, hmb⟩ hfl'⟩
        · left
          injection hfl with hf1 hf2
          exact ⟨hf2.symm, hf2 ▸ ⟨hdisk, hal, hw, hmb⟩⟩
      rcases hvf with ⟨hveq, finv⟩ | ⟨fb, fn, fw, fc, fe, fdec, finv⟩
      · -- no inner flush: the frame lands at the end of the buffer
        subst hveq
        refine ⟨fsD, ⟨?_, ?_, ?_, ?_⟩, ?_, ?_, ?_, ?_, ?_, ?_, ?_⟩
        · exact hdisk
        · show AlignedAt vf.num vf.conf.compress 0
            (fsD ++ (vf.buf ++ [(⟨vf.num, vf.w_off + DataPtr.serde_sz,
              (vlogSer vf de).length % 2 ^ 32, vf.conf.compress⟩, vlogSer vf de)]))
          rw [← List.append_assoc, alignedAt_append]
          refine ⟨hal, ?_⟩
          unfold AlignedAt
          refine ⟨rfl, rfl, ?_, rfl, trivial⟩
          simp only [DataPtr.serde_sz]
          omega
        · show vf.w_off + DataPtr.serde_sz + (vlogSer vf de).length =
            framesSize (fsD ++ (vf.buf ++ [_]))
          rw [← List.append_assoc, framesSize_append]
          simp only [framesSize, DataPtr.serde_sz]
          omega
        · intro hx
          exact absurd (hmb hx) (by simp [hmbe] at hx)
        · show fsD ++ (vf.buf ++ [_]) = (fsD ++ vf.buf) ++ [_]
          rw [← List.append_assoc]
        · show (⟨vf.num, vf.w_off + DataPtr.serde_sz,
            (vlogSer vf de).length % 2 ^ 32, vf.conf.compress⟩ : DataPtr) = _
          simp [DataPtr.serde_sz]
        · rfl
        · rfl
        · rfl
        · rfl
        · show vf.w_off + DataPtr.serde_sz + (vlogSer vf de).length =
            vf.w_off + 21 + (vlogSer vf de).length
          simp [DataPtr.serde_sz]
      · -- inner flush first: the old buffer moved to disk
        obtain ⟨gdisk, gal, gw, _⟩ := finv
        refine ⟨fsD ++ v.buf, ⟨?_, ?_, ?_, ?_⟩, ?_, ?_, ?_, ?_, ?_, ?_, ?_⟩
        · exact gdisk
        · show AlignedAt vf.num vf.conf.compress 0
            ((fsD ++ v.buf) ++ (vf.buf ++ [(⟨vf.num, v.w_off + DataPtr.serde_sz,
              (vlogSer v de).length % 2 ^ 32, vf.conf.compress⟩, vlogSer v de)]))
          rw [fb, List.nil_append, alignedAt_append]
          rw [fb, List.append_nil] at gal gw
          refine ⟨gal, ?_⟩
          unfold AlignedAt
          refine ⟨rfl, rfl, ?_, rfl, trivial⟩
          simp only [DataPtr.serde_sz]
          omega
        · show vf.w_off + DataPtr.serde_sz + (vlogSer v de).length =
            framesSize ((fsD ++ v.buf) ++ (vf.buf ++ [_]))
          rw [fb, List.nil_append, framesSize_append]
          rw [fb, List.append_nil] at gw
          simp only [framesSize, DataPtr.serde_sz]
          omega
        · intro hx
          rw [fc] at hx
          exact absurd (hmb hx) (by simp [hmbe] at hx)
        · show (fsD ++ v.buf) ++ (vf.buf ++ [(⟨vf.num, v.w_off + DataPtr.serde_sz,
              (vlogSer v de).length % 2 ^ 32, vf.conf.compress⟩, vlogSer v de)]) =
            (fsD ++ v.buf) ++ [(⟨vf.num, v.w_off + DataPtr.serde_sz,
              (vlogSer v de).length % 2 ^ 32, vf.conf.compress⟩, vlogSer v de)]
          rw [fb, List.nil_append]
        · show (⟨vf.num, v.w_off + DataPtr.serde_sz,
            (vlogSer v de).length % 2 ^ 32, vf.conf.compress⟩ : DataPtr) = _
          rw [fn, fc]
          simp [DataPtr.serde_sz]
        · exact fn
        · exact fc
        · exact fe
        · exact fdec
        · show vf.w_off + DataPtr.serde_sz + (vlogSer v de).length =
            v.w_off + 21 + (vlogSer v de).length
          rw [fw]
          simp [DataPtr.serde_sz]
  · -- direct path: write_de (memory buffer disabled, so the buffer is [])
    rename_i hmbe
    have hbufnil : v.buf = [] := hmb (by simpa using hmbe)
    unfold vlogWriteDe at h
    dsimp only at h
    rcases hw1 : vlogWriteAll v (serDP ⟨v.num, v.w_off + DataPtr.serde_sz,
        (vlogSer v de).length % 2 ^ 32, v.conf.compress⟩) with ⟨r1, v1⟩
    rw [hw1] at h
    match r1 with
    | .error e => simp at h
    | .ok _ =>
      simp only at h
      rcases hw2 : vlogWriteAll v1 (vlogSer v de) with ⟨r2, v2⟩
      rw [hw2] at h
      match r2 with
      | .error e => simp at h
      | .ok _ =>
        simp only at h
        injection h with h1 h2
        injection h1 with h1
        subst h2
        subst h1
        have e1 := vlogWriteAll_ok hw1
        have e2 := vlogWriteAll_ok hw2
        subst e1
        subst e2
        refine ⟨fsD ++ [(⟨v.num, v.w_off + DataPtr.serde_sz,
            (vlogSer v de).length % 2 ^ 32, v.conf.compress⟩, vlogSer v de)],
          ⟨?_, ?_, ?_, ?_⟩, ?_, ?_, ?_, ?_, ?_, ?_, ?_⟩
        · show v.disk ++ serDP _ ++ vlogSer v de = framesBytes (fsD ++ [_])
          rw [framesBytes_append, hdisk]
          simp [framesBytes, frameBytes]
        · show AlignedAt v.num v.conf.compress 0 ((fsD ++ [_]) ++ v.buf)
          rw [hbufnil, List.append_nil]
          rw [hbufnil, List.append_nil] at hal hw
          rw [alignedAt_append]
          refine ⟨hal, ?_⟩
          unfold AlignedAt
          refine ⟨rfl, rfl, ?_, rfl, trivial⟩
          simp only [DataPtr.serde_sz]
          omega
        · show v.w_off + (vlogSer v de).length + (serDP _).length =
            framesSize ((fsD ++ [_]) ++ v.buf)
          rw [hbufnil, List.append_nil, framesSize_append]
          rw [hbufnil, List.append_nil] at hw
          simp only [framesSize, serDP_length, DataPtr.serde_sz]
          omega
        · intro _
          exact hbufnil
        · show (fsD ++ [_]) ++ v.buf = (fsD ++ v.buf) ++ [_]
          rw [hbufnil, List.append_nil, List.append_nil]
        · simp [DataPtr.serde_sz]
        · rfl
        · rfl
        · rfl
        · rfl
        · show v.w_off + (vlogSer v de).length + (serDP _).length =
            v.w_off + 21 + (vlogSer v de).length
          rw [serDP_length]
          omega

/-- Reading a pointer that designates a frame of a well-formed vlog
returns the decode of that frame's payload, whether the frame is still
buffered or already on disk. -/
theorem vlogGet_frame {v : Vlog} {fsD : List (DataPtr × Bytes)}
    {dp : DataPtr} {p : Bytes} (hinv : VlogInv v fsD)
    (hm : (dp, p) ∈ fsD ++ v.buf) (hlen : p.length < 2 ^ 32) :
    vlogGet v dp = vlogDeBytes v p := by
  obtain ⟨hdisk, hal, hw, hmb⟩ := hinv
  have hsplit := alignedAt_append.mp hal
  have halD := hsplit.1
  have halB := hsplit.2
  have hdplen : dp.len = p.length := by
    obtain ⟨_, _, _, _, h5⟩ := alignedAt_bounds hal hm
    rw [h5, Nat.mod_eq_of_lt hlen]
  rcases List.mem_append.mp hm with hmD | hmB
  · -- the frame is on disk
    obtain ⟨hb1, hb2, _, _, _⟩ := alignedAt_bounds halD hmD
    have hfind : v.buf.find? (fun it => it.1.offset == dp.offset) = none := by
      refine alignedAt_find_none halB ?_
      omega
    have h1 : vlogGetFromBuf v dp = .ok none := by
      unfold vlogGetFromBuf
      rw [hfind]
    unfold vlogGet
    rw [h1]
    have hdlen : v.disk.length = framesSize fsD := by
      rw [hdisk, length_framesBytes]
    unfold vlogGetFromDisk
    rw [if_pos (by omega)]
    have hslice := (alignedAt_slice halD hmD).2
    simp only [Nat.sub_zero] at hslice
    rw [hdisk, hdplen, hslice]
  · -- the frame is in the write buffer
    have hfind := alignedAt_find halB hmB
    unfold vlogGet vlogGetFromBuf
    rw [hfind]
    cases hde : vlogDeBytes v p with
    | ok de => simp [hde]
    | error e => simp [hde]

/-- The vlog's compressor/decompressor pair is coherent: both present and
mutually inverse (the snappy library contract), or both absent. -/
def CodecOk (v : Vlog) : Prop :=
  match v.encoder, v.decoder with
  | some c, some d => ∀ x, d (c x) = some x
  | none, none => True
  | _, _ => False

theorem vlogDeBytes_vlogSer {v : Vlog} {de : DataEntry} (hcodec : CodecOk v)
    (hk : de.key.length < 2 ^ 64) (hv : de.val.length < 2 ^ 64) :
    vlogDeBytes v (vlogSer v de) = .ok de := by
  unfold CodecOk at hcodec
  unfold vlogDeBytes vlogSer
  match he : v.encoder, hd : v.decoder with
  | some c, some d =>
    rw [he, hd] at hcodec
    simp only at hcodec ⊢
    rw [hcodec (serDE de)]
    simp only
    rw [deserDE_serDE hk hv]
  | none, none =>
    simp only at *
    rw [deserDE_serDE hk hv]
  | some c, none => rw [he, hd] at hcodec; simp only at hcodec
  | none, some d => rw [he, hd] at hcodec; simp only at hcodec

/-! ## Vlog reachability (for the frame-layout claim) -/

/-- Vlog states reachable from a fresh segment file by successful puts and
flushes. -/
inductive VlogReach : Vlog → Prop where
  | init (num : VlogNum) (conf : VlogConfig) (snapC : Bytes → Bytes)
      (snapD : Bytes → Option Bytes) :
      VlogReach (vlogFromPath num conf [] snapC snapD)
  | put {v v' : Vlog} {de : DataEntry} {dp : DataPtr} :
      VlogReach v → vlogPut v de = (.ok dp, v') → VlogReach v'
  | flush {v v' : Vlog} {u : Unit} :
      VlogReach v → vlogFlush v = (.ok u, v') → VlogReach v'

theorem vlogInv_init (num : VlogNum) (conf : VlogConfig)
    (snapC : Bytes → Bytes) (snapD : Bytes → Option Bytes) :
    VlogInv (vlogFromPath num conf [] snapC snapD) [] := by
  refine ⟨rfl, trivial, rfl, fun _ => rfl⟩

theorem vlogReach_inv {v : Vlog} (h : VlogReach v) : ∃ fsD, VlogInv v fsD := by
  induction h with
  | init num conf snapC snapD => exact ⟨[], vlogInv_init num conf snapC snapD⟩
  | put hr hput ih =>
    obtain ⟨fsD, hinv⟩ := ih
    obtain ⟨fsD', hinv', _⟩ := vlogPut_ok hinv hput
    exact ⟨fsD', hinv'⟩
  | flush hr hfl ih =>
    obtain ⟨fsD, hinv⟩ := ih
    exact ⟨_, vlogInv_flush hinv hfl⟩

theorem vlogInv_disk_slices {v : Vlog} {fsD : List (DataPtr × Bytes)}
    (hinv : VlogInv v fsD) :
    ∀ f ∈ fsD, ((v.disk.drop (f.1.offset - 21)).take 21 = serDP f.1) ∧
      ((v.disk.drop f.1.offset).take f.2.length = f.2) := by
  obtain ⟨hdisk, hal, _, _⟩ := hinv
  intro f hf
  rcases f with ⟨dp, p⟩
  have halD := (alignedAt_append.mp hal).1
  have hs := alignedAt_slice halD hf
  simp only [Nat.sub_zero] at hs
  exact ⟨by rw [hdisk]; exact hs.1, by rw [hdisk]; exact hs.2⟩

/-! ## Claim C4: DataPointer serialization round-trip -/

/-- C4: for every `DataPointer` value (fields within their Rust machine
types `u64`/`u64`/`u32`/`bool`), serializing produces exactly 21 bytes and
deserializing those bytes yields the original pointer under the
little-endian fixed-width encoding. -/
theorem c4_dataptr_roundtrip (dp : DataPtr) (h : dpBounded dp) :
    (serDP dp).length = 21 ∧ deserDP (serDP dp) = some dp :=
  ⟨serDP_length dp, deserDP_serDP h⟩

theorem c4_dataptr_roundtrip_witness :
    dpBounded ⟨3, 1000, 77, true⟩ ∧
      ((serDP ⟨3, 1000, 77, true⟩).length = 21 ∧
        deserDP (serDP ⟨3, 1000, 77, true⟩) = some ⟨3, 1000, 77, true⟩) :=
  ⟨by decide, c4_dataptr_roundtrip ⟨3, 1000, 77, true⟩ (by decide)⟩

/-! ## Claim C3: the on-disk frame layout of a vlog -/

/-- C3: every vlog state reachable by successful puts and flushes from a
fresh segment decomposes into frames — on each frame the 21-byte
serialized `DataPtr` immediately precedes the encoded `DataEntry` payload
and `DP.offset` is the byte offset where the payload begins (frame start +
21, captured by `VlogInv`/`AlignedAt`); hence for any frame pointer, the
21 bytes of the file immediately preceding `DP.offset` encode that same
pointer, and the payload sits at `DP.offset`. -/
theorem c3_vlog_frame_layout {v : Vlog} (hreach : VlogReach v) :
    ∃ fsD, VlogInv v fsD ∧
      ∀ f ∈ fsD, ((v.disk.drop (f.1.offset - 21)).take 21 = serDP f.1) ∧
        ((v.disk.drop f.1.offset).take f.2.length = f.2) := by
  obtain ⟨fsD, hinv⟩ := vlogReach_inv hreach
  exact ⟨fsD, hinv, vlogInv_disk_slices hinv⟩

/-- A concrete vlog state: one put, then a flush, on a fresh
uncompressed segment. -/
def vlogWitnessState : Vlog :=
  (vlogFlush ((vlogPut (vlogFromPath 0 ⟨true, 1000, false⟩ []
    (fun b => b) (fun b => some b)) ⟨[1], [2]⟩).2)).2

theorem c3_vlog_frame_layout_witness :
    ∃ fsD, VlogInv vlogWitnessState fsD ∧
      ∀ f ∈ fsD,
        ((vlogWitnessState.disk.drop (f.1.offset - 21)).take 21 = serDP f.1) ∧
        ((vlogWitnessState.disk.drop f.1.offset).take f.2.length = f.2) :=
  c3_vlog_frame_layout
    (@VlogReach.flush
      ((vlogPut (vlogFromPath 0 ⟨true, 1000, false⟩ []
        (fun b => b) (fun b => some b)) ⟨[1], [2]⟩).2)
      vlogWitnessState ()
      (@VlogReach.put
        (vlogFromPath 0 ⟨true, 1000, false⟩ [] (fun b => b) (fun b => some b))
        ((vlogPut (vlogFromPath 0 ⟨true, 1000, false⟩ []
          (fun b => b) (fun b => some b)) ⟨[1], [2]⟩).2)
        ⟨[1], [2]⟩ ⟨0, 21, 18, false⟩
        (VlogReach.init 0 ⟨true, 1000, false⟩ (fun b => b) (fun b => some b))
        rfl)
      rfl)

/-! ## Claim C8: the `sync` option and the vlog write path -/

/-- A vlog opened with the configuration derived from options with
`sync = true` (defaults otherwise). -/
def vlogForSyncOpts : Vlog :=
  vlogFromPath 0 (VlogConfig.fromOpts { DatabaseOptions.default with sync := true })
    [] (fun b => b) (fun b => some b)

/-- C8 (refuting evidence): with `sync = true` and the default
`vlog_mem_buf_enabled = true`, `VlogConfig::from` produces the same
configuration as with `sync = false` — the option is never consulted — and
`Vlog::put` leaves the frame in the in-memory buffer without writing or
flushing anything to disk, contradicting both the claim and the
documentation of the `sync` option in `src/config.rs` ("If enabled all
writes will be flushed to disk"). -/
theorem c8_sync_ignored_by_vlog_put :
    VlogConfig.fromOpts { DatabaseOptions.default with sync := true } =
      VlogConfig.fromOpts DatabaseOptions.default ∧
    (VlogConfig.fromOpts
      { DatabaseOptions.default with sync := true }).mem_buf_enabled = true ∧
    (vlogPut vlogForSyncOpts ⟨[1], [2]⟩).1 = .ok ⟨0, 21, 18, true⟩ ∧
    (vlogPut vlogForSyncOpts ⟨[1], [2]⟩).2.disk = [] ∧
    (vlogPut vlogForSyncOpts ⟨[1], [2]⟩).2.buf.length = 1 :=
  ⟨rfl, rfl, rfl, rfl, rfl⟩

/-! ## Claim C7: termination of the sequential scanner -/

/-- A scanner over a 10-byte file: end-of-file falls in the middle of the
first 21-byte header. -/
def iterShortHeader : VlogIter := ⟨List.replicate 10 0, 0, fun b => some b⟩

/-- C7 counterexample: on a file that is a partial header (10 bytes, not a
whole number of frames), the scanner terminates cleanly (`Ok(None)`)
rather than failing — refuting "any short read mid-frame (a partial
header ...) is a fatal `VlogCorrupt` error" and "terminates cleanly
exactly when end-of-file occurs at a 21-byte boundary". -/
theorem c7_counterexample :
    iterShortHeader.file.length = 10 ∧ iterShortHeader.pos = 0 ∧
      (vlogIterNextEntry iterShortHeader).1 = .ok none :=
  ⟨rfl, rfl, rfl⟩

/-- C7 (amended): the scanner terminates cleanly exactly when fewer than
21 bytes remain before the header read — at a frame boundary or mid-header
alike; a payload shorter than `DP.len` after a complete header is a fatal
error, but it is the propagated IO `UnexpectedEof`, not a dedicated
`VlogCorrupt` variant (none exists in `src/error.rs`). -/
theorem c7_scanner_termination_amended (it : VlogIter) :
    ((vlogIterNextEntry it).1 = .ok none ↔ it.file.length - it.pos < 21) ∧
    (∀ dp : DataPtr, 21 ≤ it.file.length - it.pos →
      deserDP ((it.file.drop it.pos).take 21) = some dp →
      it.file.length - it.pos - 21 < dp.len →
      (vlogIterNextEntry it).1 = .error (.IOError .unexpectedEof)) := by
  constructor
  · unfold vlogIterNextEntry vlogIterReadDp readExact DataPtr.serde_sz
    by_cases h1 : it.pos + 21 ≤ it.file.length
    · rw [if_pos h1]
      simp only
      rcases hdp : deserDP ((it.file.drop it.pos).take 21) with _ | dp <;>
        simp only
      · simp
        omega
      · rcases hde : vlogIterReadDe ⟨it.file, it.pos + 21, it.decoder⟩
          dp.len dp.compressed with ⟨r, it2⟩
        match r with
        | .error e =>
          simp
          omega
        | .ok de =>
          simp
          omega
    · rw [if_neg h1]
      simp
      omega
  · intro dp hrem hdp hshort
    unfold vlogIterNextEntry vlogIterReadDp readExact DataPtr.serde_sz
    rw [if_pos (by omega)]
    simp only
    rw [hdp]
    simp only
    unfold vlogIterReadDe readExact
    rw [if_neg (by simp only; omega)]

theorem c7_scanner_termination_amended_witness :
    ((vlogIterNextEntry iterShortHeader).1 = .ok none) ∧
    ((vlogIterNextEntry ⟨serDP ⟨0, 21, 5, false⟩ ++ [1, 2, 3], 0,
        fun b => some b⟩).1 = .error (.IOError .unexpectedEof)) :=
  ⟨(c7_scanner_termination_amended iterShortHeader).1.mpr (by decide),
    (c7_scanner_termination_amended _).2 ⟨0, 21, 5, false⟩ (by decide)
      (by decide) (by decide)⟩

/-! ## Claim C9: the key-index put durability sync -/

/-- A pointer for key-index fixtures. -/
def dpFixture : DataPtr := ⟨0, 21, 5, false⟩

/-- The wall-clock trace of the C9 counterexample: readings at 11 s, 16 s
and 22 s, two successful readings per put. -/
def c9clock : Nat → Option Nat
  | 0 => some 11000000000
  | 1 => some 11000000000
  | 2 => some 16000000000
  | 3 => some 16000000000
  | _ => some 22000000000

/-- The key-index state after a put at t = 11s (which snapshots, as the
marker starts at 0), then a put at t = 16s (no snapshot). -/
def keysAfterTwoPuts : Keys :=
  (keysPut ((keysPut (keysNew [] DatabaseOptions.default) [1] dpFixture
    c9clock 0).2.1) [1] dpFixture c9clock 2).2.1

/-- C9 counterexample: with the default 10-second interval, the first put
at t = 11s writes a snapshot (the last sync is therefore at t = 11s); the
second put at t = 16s does not; the third put at t = 22s — 11 seconds
after the last sync, exceeding the interval — still does not write a
snapshot, because the code measures elapsed time against the marker of
the previous *put* (t = 16s), not the last sync.  Refutes "triggers a
durability sync exactly when the elapsed wall-clock time since the last
sync exceeds keys_sync_interval seconds". -/
theorem c9_counterexample :
    ((keysPut (keysNew [] DatabaseOptions.default) [1] dpFixture
        c9clock 0).2.1.file ≠
      (keysNew [] DatabaseOptions.default).file) ∧
    keysAfterTwoPuts.file =
      ((keysPut (keysNew [] DatabaseOptions.default) [1] dpFixture
        c9clock 0).2.1).file ∧
    (keysPut keysAfterTwoPuts [1] dpFixture c9clock 4).2.1.file =
      keysAfterTwoPuts.file ∧
    22000000000 - 11000000000 >
      DatabaseOptions.default.keys_sync_interval * 10 ^ 9 := by
  refine ⟨by decide, rfl, rfl, by decide⟩

/-- C9 (amended): `Keys::put` performs the map insert first, in all cases
— the insert survives every failure of this fallible operation; a failed
wall-clock reading aborts it with `SystemTimeError`, and an IO failure of
the triggered snapshot write propagates.  When the two clock readings
succeed and the snapshot write does not fail, it returns `Ok`, having
written a whole-structure snapshot exactly when the first reading minus
the `magic` marker exceeds `keys_sync_interval * 10^9` nanoseconds, where
`magic` is the timestamp of the *previous put* (the marker is updated to
the second clock reading on every successful put, synced or not, and
starts at 0) — the marker tracks the last modification, not the last
sync. -/
theorem c9_keys_put_amended (ks : Keys) (k : Bytes) (dp : DataPtr)
    (clock : Nat → Option Nat) (i : Nat) :
    (keysPut ks k dp clock i).2.1.map = minsert ks.map k dp ∧
    (clock i = none →
      (keysPut ks k dp clock i).1 = .error .SystemTimeError) ∧
    (∀ t1 t2, clock i = some t1 → clock (i + 1) = some t2 →
      ks.faults = [] →
      (keysPut ks k dp clock i).1 = .ok () ∧
      (keysPut ks k dp clock i).2.1.magic = t2 ∧
      (keysPut ks k dp clock i).2.1.file =
        (if t1 - ks.magic > ks.conf.keys_sync_interval * 10 ^ 9
          then some (serKeys { ks with map := minsert ks.map k dp })
          else ks.file)) := by
  refine ⟨keysPut_map ks k dp clock i, ?_, ?_⟩
  · intro hnone
    unfold keysPut keysPutTail
    rw [hnone]
  · intro t1 t2 ht1 ht2 hfl
    have hfl' : ({ ks with map := minsert ks.map k dp } : Keys).faults = [] :=
      hfl
    obtain ⟨h1, h2, h3, h4⟩ := keysPutTail_ok ht1 ht2 hfl'
    exact ⟨h1, h2, h4⟩

theorem c9_keys_put_amended_witness :
    (keysPut (keysNew [] DatabaseOptions.default) [1] dpFixture
      c9clock 0).1 = .ok () ∧
    (keysPut (keysNew [] DatabaseOptions.default) [1] dpFixture
      c9clock 0).2.1.magic = 11000000000 ∧
    (keysPut (keysNew [] DatabaseOptions.default) [1] dpFixture
      c9clock 0).2.1.file =
      some (serKeys { keysNew [] DatabaseOptions.default with
        map := minsert [] [1] dpFixture }) := by
  have h := (c9_keys_put_amended (keysNew [] DatabaseOptions.default) [1]
    dpFixture c9clock 0).2.2 11000000000 11000000000 rfl rfl rfl
  refine ⟨h.1, h.2.1, ?_⟩
  rw [h.2.2]
  have hcond : 11000000000 - (keysNew [] DatabaseOptions.default).magic >
      (keysNew [] DatabaseOptions.default).conf.keys_sync_interval * 10 ^ 9 := by
    decide
  rw [if_pos hcond]
  rfl

/-! ## Claim C10: loading the key-index snapshot at open -/

/-- C10: when the snapshot file exists, the entire `Keys` structure — map,
stored path and stored configuration — is decoded from the file and the
`path`/`conf` arguments are ignored (the result does not depend on them);
the arguments take effect only when no snapshot file exists. -/
theorem c10_keys_snapshot_load (bytes : Bytes) (K : Keys) (p p' : Bytes)
    (c c' : DatabaseOptions) (hdec : deserKeys bytes = some K) :
    keysFromPath (some bytes) p c = .ok { K with file := some bytes } ∧
    keysFromPath (some bytes) p c = keysFromPath (some bytes) p' c' ∧
    keysFromPath none p c = .ok (keysNew p c) := by
  have h1 : keysFromPath (some bytes) p c = .ok { K with file := some bytes } := by
    unfold keysFromPath
    simp only
    rw [hdec]
  have h2 : keysFromPath (some bytes) p' c' = .ok { K with file := some bytes } := by
    unfold keysFromPath
    simp only
    rw [hdec]
  exact ⟨h1, by rw [h1, h2], rfl⟩

/-- A key-index fixture whose stored path and configuration differ from
anything passed at open. -/
def keysFixture : Keys :=
  { map := [([2], ⟨1, 21, 3, true⟩)]
    path := [7]
    magic := 42
    conf := ⟨5, false, 6, true, false, false, 99⟩
    file := none
    faults := [] }

theorem c10_keys_snapshot_load_witness :
    deserKeys (serKeys keysFixture) = some keysFixture ∧
    keysFromPath (some (serKeys keysFixture)) [9, 9] DatabaseOptions.default =
      .ok { keysFixture with file := some (serKeys keysFixture) } :=
  ⟨by decide,
    (c10_keys_snapshot_load (serKeys keysFixture) keysFixture [9, 9] [0]
      DatabaseOptions.default DatabaseOptions.default (by decide)).1⟩

/-! ## Claim C5: the GC sweep returns the first live frame -/

/-- The payload decode stage of `VlogIter::read_de`: decompress when the
frame's flag says so, then bincode-decode. -/
def decodePayload (d : Bytes → Option Bytes) (compressed : Bool) (p : Bytes) :
    Option DataEntry :=
  if compressed then (d p).bind deserDE else deserDE p

/-- The frame `f` parses back (with decoder `d`) to the entry `de`:
in-range pointer fields, a length field that matches the payload, and a
decodable payload. -/
def FrameReads (d : Bytes → Option Bytes) (f : DataPtr × Bytes)
    (de : DataEntry) : Prop :=
  dpBounded f.1 ∧ f.1.len = f.2.length ∧
    decodePayload d f.1.compressed f.2 = some de

/-- The liveness test of `Janitor::sweep` on one `(DP, DE)` pair: the key
is present in the index and its current pointer equals the frame's. -/
def liveHit (ks : Keys) (fd : DataPtr × DataEntry) : Bool :=
  match keysGet ks fd.2.key with
  | some cur => cur = fd.1
  | none => false

/-- The specification of a sweep, in the claim's own terms: the first
`(DP, DE)` pair whose key is present in the index with pointer equal to
`DP`; frames with missing or differing index pointers are skipped. -/
def liveResult (ks : Keys) (l : List (DataPtr × DataEntry)) :
    Option DataEntry :=
  (l.find? (liveHit ks)).map (·.2)

theorem vlogIterNextEntry_eof {it : VlogIter}
    (h : it.file.length < it.pos + 21) :
    vlogIterNextEntry it = (.ok none, ⟨it.file, it.file.length, it.decoder⟩) := by
  unfold vlogIterNextEntry vlogIterReadDp readExact DataPtr.serde_sz
  rw [if_neg (by omega)]

theorem vlogIterNextEntry_frame {it : VlogIter} {dp : DataPtr} {p : Bytes}
    {rest : Bytes} {de : DataEntry}
    (hrem : it.file.drop it.pos = serDP dp ++ p ++ rest)
    (hb : dpBounded dp) (hlen : dp.len = p.length)
    (hdec : decodePayload it.decoder dp.compressed p = some de) :
    vlogIterNextEntry it =
      (.ok (some (dp, de)), ⟨it.file, it.pos + 21 + p.length, it.decoder⟩) := by
  have hrl : it.file.length - it.pos = 21 + p.length + rest.length := by
    have := congrArg List.length hrem
    simp [serDP_length] at this
    omega
  have hpos : it.pos + 21 + p.length + rest.length = it.file.length := by
    rcases le_or_lt it.pos it.file.length with hle | hlt
    · omega
    · rw [List.drop_eq_nil_of_le (by omega)] at hrem
      have := congrArg List.length hrem
      simp [serDP_length] at this
      omega
  have hd21 : (it.file.drop it.pos).take 21 = serDP dp := by
    rw [hrem, List.append_assoc, List.take_append_eq_append_take, serDP_length]
    simp [serDP_length]
  have hdrop21 : it.file.drop (it.pos + 21) = p ++ rest := by
    have : it.file.drop (it.pos + 21) = (it.file.drop it.pos).drop 21 := by
      rw [List.drop_drop]
    rw [this, hrem, List.append_assoc, List.drop_append_eq_append_drop,
      serDP_length]
    simp [serDP_length, List.drop_eq_nil_of_le]
    try omega
  have hdp : (it.file.drop (it.pos + 21)).take p.length = p := by
    rw [hdrop21, List.take_append_eq_append_take]
    simp
  unfold vlogIterNextEntry vlogIterReadDp readExact DataPtr.serde_sz
  rw [if_pos (by omega)]
  simp only
  rw [hd21, deserDP_serDP hb]
  simp only
  unfold vlogIterReadDe readExact
  rw [if_pos (by simp only; omega)]
  simp only
  rw [hlen, hdp]
  unfold decodePayload at hdec
  cases hcmp : dp.compressed with
  | true =>
    rw [hcmp] at hdec
    rw [if_pos rfl] at hdec
    simp only [if_pos]
    rcases hdraw : it.decoder p with _ | raw
    · rw [hdraw] at hdec; simp at hdec
    · rw [hdraw] at hdec
      simp only [Option.bind] at hdec
      simp only
      rw [hdec]
  | false =>
    rw [hcmp] at hdec
    rw [if_neg (by simp)] at hdec
    simp only [Bool.false_eq_true, if_false]
    rw [hdec]

theorem sweepIter_frames {ks : Keys} {fs : List (DataPtr × Bytes)}
    {des : List DataEntry} :
    ∀ {it : VlogIter},
    it.file.drop it.pos = framesBytes fs →
    List.Forall₂ (FrameReads it.decoder) fs des →
    (sweepIter it ks).1 = .ok (liveResult ks ((fs.map Prod.fst).zip des)) ∧
      (liveResult ks ((fs.map Prod.fst).zip des) = none →
        (sweepIter it ks).2.pos = it.file.length ∧
        (sweepIter it ks).2.file = it.file) := by
  induction fs generalizing des with
  | nil =>
    intro it hrem hfr
    cases hfr
    have hrl : it.file.length ≤ it.pos := by
      have := congrArg List.length hrem
      simp [framesBytes] at this
      omega
    have hnext := @vlogIterNextEntry_eof it (by omega)
    rw [sweepIter, hnext]
    simp [liveResult]
  | cons f fs ih =>
    rcases f with ⟨dp, p⟩
    intro it hrem hfr
    rcases hfr with _ | ⟨⟨hb, hlen, hdec⟩, hfr'⟩
    rename_i de des'
    have hrem' : it.file.drop it.pos = serDP dp ++ p ++ framesBytes fs := by
      rw [hrem]
      simp [framesBytes, frameBytes]
    have hnext := vlogIterNextEntry_frame hrem' hb hlen hdec
    rw [sweepIter, hnext]
    simp only
    have hrem2 : it.file.drop (it.pos + 21 + p.length) = framesBytes fs := by
      have h1 : it.file.drop (it.pos + 21 + p.length) =
          (it.file.drop it.pos).drop (21 + p.length) := by
        rw [List.drop_drop]
        congr 1
        omega
      rw [h1, hrem', List.append_assoc, List.drop_append_eq_append_drop,
        serDP_length]
      simp [List.drop_append_eq_append_drop, List.drop_eq_nil_of_le,
        serDP_length]
    rcases hkg : keysGet ks de.key with _ | cur
    · -- key absent: stale, skip
      have hmiss : ¬liveHit ks (dp, de) = true := by
        unfold liveHit
        rw [hkg]
        simp
      obtain ⟨r1, r2⟩ := @ih des' ⟨it.file, it.pos + 21 + p.length, it.decoder⟩
        hrem2 hfr'
      refine ⟨?_, ?_⟩
      · rw [r1]
        simp [liveResult, List.find?_cons_of_neg _ hmiss]
      · intro hnone
        simp only [List.map_cons, List.zip_cons_cons] at hnone
        rw [liveResult, List.find?_cons_of_neg _ hmiss] at hnone
        exact r2 hnone
    · by_cases hcur : cur = dp
      · -- live: return this entry
        subst hcur
        have hhit : liveHit ks (cur, de) = true := by
          unfold liveHit
          rw [hkg]
          simp
        simp only [if_true]
        refine ⟨?_, ?_⟩
        · simp [liveResult, List.find?_cons_of_pos _ hhit]
        · intro hnone
          simp only [List.map_cons, List.zip_cons_cons] at hnone
          rw [liveResult, List.find?_cons_of_pos _ hhit] at hnone
          simp at hnone
      · -- stale: pointer moved elsewhere, skip
        have hmiss : ¬liveHit ks (dp, de) = true := by
          unfold liveHit
          rw [hkg]
          simp [hcur]
        simp only
        rw [if_neg (by simpa using hcur)]
        obtain ⟨r1, r2⟩ := @ih des' ⟨it.file, it.pos + 21 + p.length, it.decoder⟩
          hrem2 hfr'
        refine ⟨?_, ?_⟩
        · rw [r1]
          simp [liveResult, List.find?_cons_of_neg _ hmiss]
        · intro hnone
          simp only [List.map_cons, List.zip_cons_cons] at hnone
          rw [liveResult, List.find?_cons_of_neg _ hmiss] at hnone
          exact r2 hnone

/-- C5: a GC sweep step over the retiring segment — whose remaining bytes
form a frame sequence `fs` decoding to entries `des` — returns `Ok` of the
first frame whose key is present in the key index with a pointer equal to
that frame's own pointer (`liveResult`, the claim's liveness test); it
skips every frame whose key is missing from the index or whose index
pointer differs; and it returns `None` exactly when the reader reaches the
end of the segment. -/
theorem c5_gc_sweep_first_live (j : Janitor) (ks : Keys)
    (fs : List (DataPtr × Bytes)) (des : List DataEntry)
    (hrem : j.vlog_iter.file.drop j.vlog_iter.pos = framesBytes fs)
    (hfr : List.Forall₂ (FrameReads j.vlog_iter.decoder) fs des) :
    (sweep j ks).1 = .ok (liveResult ks ((fs.map Prod.fst).zip des)) ∧
    (liveResult ks ((fs.map Prod.fst).zip des) = none →
      (sweep j ks).2.vlog_iter.pos = (sweep j ks).2.vlog_iter.file.length) := by
  obtain ⟨r1, r2⟩ := @sweepIter_frames ks fs des j.vlog_iter hrem hfr
  have hfst : (sweep j ks).1 = (sweepIter j.vlog_iter ks).1 := by
    unfold sweep
    rcases sweepIter j.vlog_iter ks with ⟨r, it'⟩
    rfl
  have hsnd : (sweep j ks).2.vlog_iter = (sweepIter j.vlog_iter ks).2 := by
    unfold sweep
    rcases sweepIter j.vlog_iter ks with ⟨r, it'⟩
    rfl
  refine ⟨by rw [hfst, r1], ?_⟩
  intro hnone
  obtain ⟨hpos, hfile⟩ := r2 hnone
  rw [hsnd, hpos, hfile]

/-- A three-frame retiring segment: key `[1]` was overwritten (index
pointer moved elsewhere), key `[2]` was deleted (absent), key `[3]` is
live (index pointer equals the frame pointer). -/
def janFixture : Janitor :=
  ⟨7, ⟨framesBytes [(⟨5, 21, 18, false⟩, serDE ⟨[1], [9]⟩),
      (⟨5, 60, 18, false⟩, serDE ⟨[2], [8]⟩),
      (⟨5, 99, 18, false⟩, serDE ⟨[3], [7]⟩)], 0, fun b => some b⟩⟩

/-- The key index for the sweep fixture. -/
def keysForSweep : Keys :=
  { map := [([1], ⟨9, 9, 9, false⟩), ([3], ⟨5, 99, 18, false⟩)]
    path := []
    magic := 0
    conf := DatabaseOptions.default
    file := none
    faults := [] }

theorem c5_gc_sweep_first_live_witness :
    (sweep janFixture keysForSweep).1 = .ok (some ⟨[3], [7]⟩) := by
  have h := (c5_gc_sweep_first_live janFixture keysForSweep
    [(⟨5, 21, 18, false⟩, serDE ⟨[1], [9]⟩),
      (⟨5, 60, 18, false⟩, serDE ⟨[2], [8]⟩),
      (⟨5, 99, 18, false⟩, serDE ⟨[3], [7]⟩)]
    [⟨[1], [9]⟩, ⟨[2], [8]⟩, ⟨[3], [7]⟩] rfl
    (List.Forall₂.cons ⟨by decide, by decide, by decide⟩
      (List.Forall₂.cons ⟨by decide, by decide, by decide⟩
        (List.Forall₂.cons ⟨by decide, by decide, by decide⟩
          List.Forall₂.nil)))).1
  rw [h]
  rfl

/-! ## Map lemmas -/

theorem mlookup_minsert_self (m : List (Bytes × DataPtr)) (k : Bytes)
    (v : DataPtr) : mlookup (minsert m k v) k = some v := by
  unfold minsert mlookup
  rw [List.find?_cons_of_pos _ (by simp)]

theorem find?_mremove_ne {m : List (Bytes × DataPtr)} {k k' : Bytes}
    (h : k' ≠ k) :
    (mremove m k).find? (fun e => e.1 == k') = m.find? (fun e => e.1 == k') := by
  induction m with
  | nil => rfl
  | cons a m ih =>
    rcases a with ⟨a, b⟩
    unfold mremove
    by_cases hka : k == a
    · rw [if_pos hka]
      have hak : a = k := (beq_iff_eq.mp hka).symm
      rw [List.find?_cons_of_neg _ (by simp [hak]; exact fun hh => absurd hh.symm h)]
    · rw [if_neg hka]
      by_cases hak' : a == k'
      · rw [List.find?_cons_of_pos _ (by simpa using hak'),
          List.find?_cons_of_pos _ (by simpa using hak')]
      · rw [List.find?_cons_of_neg _ (by simpa using hak'),
          List.find?_cons_of_neg _ (by simpa using hak')]
        exact ih

theorem mlookup_mremove_ne {m : List (Bytes × DataPtr)} {k k' : Bytes}
    (h : k' ≠ k) : mlookup (mremove m k) k' = mlookup m k' := by
  unfold mlookup
  rw [find?_mremove_ne h]

theorem mlookup_minsert_ne {m : List (Bytes × DataPtr)} {k k' : Bytes}
    {v : DataPtr} (h : k' ≠ k) :
    mlookup (minsert m k v) k' = mlookup m k' := by
  unfold minsert
  conv_lhs => unfold mlookup
  rw [List.find?_cons_of_neg _ (by simp; exact fun hh => absurd hh.symm h)]
  exact mlookup_mremove_ne h

theorem mremove_sublist (m : List (Bytes × DataPtr)) (k : Bytes) :
    (mremove m k).Sublist m := by
  induction m with
  | nil => simp [mremove]
  | cons a m ih =>
    rcases a with ⟨a, b⟩
    unfold mremove
    by_cases hka : k == a
    · rw [if_pos hka]
      exact List.sublist_cons_of_sublist _ (List.Sublist.refl m)
    · rw [if_neg hka]
      exact List.Sublist.cons₂ _ ih

theorem mlookup_eq_none_of_not_mem {m : List (Bytes × DataPtr)} {k : Bytes}
    (h : k ∉ m.map Prod.fst) : mlookup m k = none := by
  unfold mlookup
  rw [List.find?_eq_none.mpr]
  intro e he
  simp only [beq_iff_eq]
  intro hek
  exact h (List.mem_map.mpr ⟨e, he, hek⟩)

theorem mlookup_mremove_self {m : List (Bytes × DataPtr)} {k : Bytes}
    (hnd : (m.map Prod.fst).Nodup) : mlookup (mremove m k) k = none := by
  induction m with
  | nil => rfl
  | cons a m ih =>
    rcases a with ⟨a, b⟩
    simp only [List.map_cons, List.nodup_cons] at hnd
    obtain ⟨hna, hnd'⟩ := hnd
    unfold mremove
    by_cases hka : k == a
    · rw [if_pos hka]
      have hak : a = k := (beq_iff_eq.mp hka).symm
      exact mlookup_eq_none_of_not_mem (hak ▸ hna)
    · rw [if_neg hka]
      unfold mlookup
      rw [List.find?_cons_of_neg _ (by
        simp only [beq_iff_eq]
        intro hh
        exact hka (by simp [hh]))]
      exact ih hnd'

theorem nodup_mremove {m : List (Bytes × DataPtr)} {k : Bytes}
    (hnd : (m.map Prod.fst).Nodup) : ((mremove m k).map Prod.fst).Nodup :=
  hnd.sublist (List.Sublist.map _ (mremove_sublist m k))

theorem not_mem_keys_of_mlookup_none {m : List (Bytes × DataPtr)} {k : Bytes}
    (h : mlookup m k = none) : k ∉ m.map Prod.fst := by
  intro hmem
  obtain ⟨e, he, hek⟩ := List.mem_map.mp hmem
  unfold mlookup at h
  rcases hf : m.find? (fun e => e.1 == k) with _ | e'
  · have := List.find?_eq_none.mp hf e he
    simp [hek] at this
  · rw [hf] at h
    simp at h

theorem nodup_minsert {m : List (Bytes × DataPtr)} {k : Bytes} {v : DataPtr}
    (hnd : (m.map Prod.fst).Nodup) :
    ((minsert m k v).map Prod.fst).Nodup := by
  unfold minsert
  simp only [List.map_cons, List.nodup_cons]
  exact ⟨not_mem_keys_of_mlookup_none (mlookup_mremove_self hnd),
    nodup_mremove hnd⟩

theorem alookup_ains_self (m : List (VlogNum × Vlog)) (k : VlogNum)
    (v : Vlog) : alookup (ains m k v) k = some v := by
  induction m with
  | nil =>
    unfold ains alookup
    rw [List.find?_cons_of_pos _ (by simp)]
  | cons a m ih =>
    rcases a with ⟨a, b⟩
    unfold ains
    by_cases h1 : k < a
    · rw [if_pos h1]
      unfold alookup
      rw [List.find?_cons_of_pos _ (by simp)]
    · rw [if_neg h1]
      by_cases h2 : k = a
      · rw [if_pos h2]
        unfold alookup
        rw [List.find?_cons_of_pos _ (by simp)]
      · rw [if_neg h2]
        unfold alookup
        rw [List.find?_cons_of_neg _ (by
          simp only [beq_iff_eq]
          intro hh
          exact h2 hh.symm)]
        exact ih

theorem alookup_ains_ne {m : List (VlogNum × Vlog)} {k k' : VlogNum}
    {v : Vlog} (h : k' ≠ k) : alookup (ains m k v) k' = alookup m k' := by
  induction m with
  | nil =>
    unfold ains alookup
    rw [List.find?_cons_of_neg _ (by simp; exact fun hh => absurd hh.symm h)]
  | cons a m ih =>
    rcases a with ⟨a, b⟩
    unfold ains
    by_cases h1 : k < a
    · rw [if_pos h1]
      conv_lhs => unfold alookup
      rw [List.find?_cons_of_neg _ (by simp; exact fun hh => absurd hh.symm h)]
      rfl
    · rw [if_neg h1]
      by_cases h2 : k = a
      · rw [if_pos h2]
        unfold alookup
        subst h2
        rw [List.find?_cons_of_neg _ (by simp; exact fun hh => absurd hh.symm h),
          List.find?_cons_of_neg _ (by simp; exact fun hh => absurd hh.symm h)]
      · rw [if_neg h2]
        by_cases h3 : a = k'
        · unfold alookup
          rw [List.find?_cons_of_pos _ (by simpa using h3),
            List.find?_cons_of_pos _ (by simpa using h3)]
        · unfold alookup
          rw [List.find?_cons_of_neg _ (by simpa using h3),
            List.find?_cons_of_neg _ (by simpa using h3)]
          exact ih

theorem aremove_sublist (m : List (VlogNum × Vlog)) (k : VlogNum) :
    (aremove m k).Sublist m := by
  induction m with
  | nil => simp [aremove]
  | cons a m ih =>
    rcases a with ⟨a, b⟩
    unfold aremove
    by_cases hka : k = a
    · rw [if_pos hka]
      exact List.sublist_cons_of_sublist _ (List.Sublist.refl m)
    · rw [if_neg hka]
      exact List.Sublist.cons₂ _ ih

theorem alookup_aremove_ne {m : List (VlogNum × Vlog)} {k k' : VlogNum}
    (h : k' ≠ k) : alookup (aremove m k) k' = alookup m k' := by
  induction m with
  | nil => rfl
  | cons a m ih =>
    rcases a with ⟨a, b⟩
    unfold aremove
    by_cases hka : k = a
    · rw [if_pos hka]
      unfold alookup
      subst hka
      rw [List.find?_cons_of_neg _ (by simp; exact fun hh => absurd hh.symm h)]
    · rw [if_neg hka]
      by_cases h3 : a = k'
      · unfold alookup
        rw [List.find?_cons_of_pos _ (by simpa using h3),
          List.find?_cons_of_pos _ (by simpa using h3)]
      · unfold alookup
        rw [List.find?_cons_of_neg _ (by simpa using h3),
          List.find?_cons_of_neg _ (by simpa using h3)]
        exact ih

/-! ## Engine-level structural lemmas -/

/-- A successful `put_raw` core: the pointer returned by the vlog manager
is stored for `k` in the key index; nothing else of the engine state
changes besides the vlog manager, the key index and the clock counter. -/
theorem putRawCore_ok {db db' : GhalaDb} {k v : Bytes}
    (h : putRawCore db k v = (.ok (), db')) :
    ∃ dp vm', manPut db.vlogsMan ⟨k, v⟩ = (.ok dp, vm') ∧
      db'.vlogsMan = vm' ∧
      db'.keys.map = minsert db.keys.map k dp ∧
      mlookup db'.keys.map k = some dp ∧
      db'.gc = db.gc ∧ db'.opts = db.opts ∧ db'.clock = db.clock ∧
      db'.keys.conf = db.keys.conf := by
  unfold putRawCore at h
  dsimp only at h
  rcases hmp : manPut db.vlogsMan ⟨k, v⟩ with ⟨rm, vm'⟩
  rw [hmp] at h
  match rm with
  | .error e => simp at h
  | .ok dp =>
    simp only at h
    rcases hkp : keysPut db.keys k dp db.clock db.clockIdx with ⟨rk, ks', n⟩
    rw [hkp] at h
    simp only at h
    injection h with h1 h2
    subst h1
    subst h2
    have hks' : ks' = (keysPut db.keys k dp db.clock db.clockIdx).2.1 := by
      rw [hkp]
    refine ⟨dp, vm', rfl, rfl, ?_, ?_, rfl, rfl, rfl, ?_⟩
    · show ks'.map = minsert db.keys.map k dp
      rw [hks', keysPut_map]
    · show mlookup ks'.map k = some dp
      rw [hks', keysPut_map]
      exact mlookup_minsert_self _ _ _
    · show ks'.conf = db.keys.conf
      rw [hks', keysPut_conf]

/-- A failed `put_raw` core: either the vlog write failed — then the key
index is untouched and the same error comes out of `VlogsMan::put` — or
the vlog write succeeded and `Keys::put` failed after performing its
insert (a failed clock reading or snapshot write). -/
theorem putRawCore_err {db db' : GhalaDb} {k v : Bytes} {e : GhalaDbError}
    (h : putRawCore db k v = (.error e, db')) :
    (db'.keys = db.keys ∧
      manPut db.vlogsMan ⟨k, v⟩ = (.error e, db'.vlogsMan)) ∨
    (∃ dp, db'.keys.map = minsert db.keys.map k dp) := by
  unfold putRawCore at h
  dsimp only at h
  rcases hmp : manPut db.vlogsMan ⟨k, v⟩ with ⟨rm, vm'⟩
  rw [hmp] at h
  match rm with
  | .error e' =>
    simp only at h
    injection h with h1 h2
    injection h1 with h1
    subst h1
    subst h2
    exact Or.inl ⟨rfl, rfl⟩
  | .ok dp =>
    simp only at h
    rcases hkp : keysPut db.keys k dp db.clock db.clockIdx with ⟨rk, ks', n⟩
    rw [hkp] at h
    simp only at h
    injection h with h1 h2
    subst h2
    refine Or.inr ⟨dp, ?_⟩
    show ks'.map = minsert db.keys.map k dp
    have hks' : ks' = (keysPut db.keys k dp db.clock db.clockIdx).2.1 := by
      rw [hkp]
    rw [hks', keysPut_map]

/-- A sweep that yields a live entry found that entry's key in the index. -/
theorem sweepIter_some_lookup {ks : Keys} :
    ∀ n : Nat, ∀ it it' : VlogIter, ∀ de : DataEntry,
    it.file.length - it.pos ≤ n →
    sweepIter it ks = (.ok (some de), it') →
    keysGet ks de.key ≠ none := by
  intro n
  induction n with
  | zero =>
    intro it it' de hle hs
    have hnext := @vlogIterNextEntry_eof it (by omega)
    rw [sweepIter, hnext] at hs
    simp at hs
  | succ n ih =>
    intro it it' de hle hs
    rw [sweepIter] at hs
    rcases hnext : vlogIterNextEntry it with ⟨r, itm⟩
    rw [hnext] at hs
    match r with
    | .error e => simp at hs
    | .ok none => simp at hs
    | .ok (some (dp, de0)) =>
      simp only at hs
      obtain ⟨hf, hlt, hle'⟩ := vlogIterNextEntry_progress hnext
      have hm : itm.file.length - itm.pos ≤ n := by
        rw [hf]
        omega
      rcases hkg : keysGet ks de0.key with _ | cur
      · rw [hkg] at hs
        exact ih itm it' de hm hs
      · rw [hkg] at hs
        simp only at hs
        by_cases hc : cur = dp
        · rw [if_pos hc] at hs
          injection hs with h1 h2
          injection h1 with h1
          injection h1 with h1
          subst h1
          rw [hkg]
          simp
        · rw [if_neg hc] at hs
          exact ih itm it' de hm hs

theorem sweep_some_lookup {j j' : Janitor} {ks : Keys} {de : DataEntry}
    (h : sweep j ks = (.ok (some de), j')) : keysGet ks de.key ≠ none := by
  unfold sweep at h
  rcases hs : sweepIter j.vlog_iter ks with ⟨r, it'⟩
  rw [hs] at h
  injection h with h1 h2
  subst h1
  exact sweepIter_some_lookup j.vlog_iter.file.length j.vlog_iter it' de
    (by omega) hs

/-- A GC step never resurrects an absent key: whatever it re-inserts was
found in the index at sweep time. -/
theorem gcStep_absent {db db' : GhalaDb} {k : Bytes} {r : Except GhalaDbError Unit}
    (hnone : mlookup db.keys.map k = none) (h : gcStep db = (r, db')) :
    mlookup db'.keys.map k = none := by
  unfold gcStep at h
  split at h
  · injection h with h1 h2
    subst h2
    exact hnone
  · rcases hgc : db.gc with _ | j
    · rw [hgc] at h
      simp only at h
      rcases hng : manNeedsGc db.vlogsMan with _ | vnum <;> rw [hng] at h <;>
        simp only at h
      · injection h with h1 h2
        subst h2
        exact hnone
      · injection h with h1 h2
        subst h2
        exact hnone
    · rw [hgc] at h
      simp only at h
      rcases hsw : sweep j db.keys with ⟨rs, j'⟩
      rw [hsw] at h
      match rs with
      | .error e =>
        simp only at h
        injection h with h1 h2
        subst h2
        exact hnone
      | .ok none =>
        simp only at h
        injection h with h1 h2
        subst h2
        exact hnone
      | .ok (some de) =>
        simp only at h
        have hdk : de.key ≠ k := by
          intro heq
          exact sweep_some_lookup hsw (by rw [heq]; exact hnone)
        match r, h with
        | .ok u, h =>
          cases u
          obtain ⟨dp, vm', _, _, hmap, _, _, _, _, _⟩ := putRawCore_ok h
          rw [hmap]
          simp only
          rw [mlookup_minsert_ne (fun hh => hdk hh.symm)]
          exact hnone
        | .error e, h =>
          rcases putRawCore_err h with ⟨hkeys, _⟩ | ⟨dp, hmapx⟩
          · rw [hkeys]
            exact hnone
          · rw [hmapx]
            rw [mlookup_minsert_ne (fun hh => hdk hh.symm)]
            exact hnone

/-- A GC step never deletes a key mapping. -/
theorem gcStep_present {db db' : GhalaDb} {k : Bytes}
    {r : Except GhalaDbError Unit}
    (hsome : mlookup db.keys.map k ≠ none) (h : gcStep db = (r, db')) :
    mlookup db'.keys.map k ≠ none := by
  unfold gcStep at h
  split at h
  · injection h with h1 h2
    subst h2
    exact hsome
  · rcases hgc : db.gc with _ | j
    · rw [hgc] at h
      simp only at h
      rcases hng : manNeedsGc db.vlogsMan with _ | vnum <;> rw [hng] at h <;>
        simp only at h
      · injection h with h1 h2
        subst h2
        exact hsome
      · injection h with h1 h2
        subst h2
        exact hsome
    · rw [hgc] at h
      simp only at h
      rcases hsw : sweep j db.keys with ⟨rs, j'⟩
      rw [hsw] at h
      match rs with
      | .error e =>
        simp only at h
        injection h with h1 h2
        subst h2
        exact hsome
      | .ok none =>
        simp only at h
        injection h with h1 h2
        subst h2
        exact hsome
      | .ok (some de) =>
        simp only at h
        match r, h with
        | .ok u, h =>
          cases u
          obtain ⟨dp, vm', _, _, hmap, _, _, _, _, _⟩ := putRawCore_ok h
          rw [hmap]
          simp only
          by_cases hdk : k = de.key
          · subst hdk
            rw [mlookup_minsert_self]
            simp
          · rw [mlookup_minsert_ne hdk]
            exact hsome
        | .error e, h =>
          rcases putRawCore_err h with ⟨hkeys, _⟩ | ⟨dp, hmapx⟩
          · rw [hkeys]
            exact hsome
          · rw [hmapx]
            by_cases hdk : k = de.key
            · subst hdk
              rw [mlookup_minsert_self]
              simp
            · rw [mlookup_minsert_ne hdk]
              exact hsome

theorem mlookup_none_mremove {m : List (Bytes × DataPtr)} {k k' : Bytes}
    (h : mlookup m k = none) : mlookup (mremove m k') k = none := by
  refine mlookup_eq_none_of_not_mem ?_
  intro hmem
  refine not_mem_keys_of_mlookup_none h ?_
  exact (List.Sublist.map Prod.fst (mremove_sublist m k')).mem hmem

/-! ## Claim C2: delete semantics -/

/-- C2: `Keys::delete` returns `Ok` unconditionally — deleting an absent
key is not an error, a tombstone being the absence of an index entry;
after `GhalaDb::delete(k)` (whatever the inline GC step did, even on its
error paths) the index has no entry for `k` and `get(k)` returns `None`;
the absence of `k` is preserved by any subsequent `put` of a different key
and by any subsequent `delete`, and only a `put` of `k` itself restores
the mapping (a successful put of `k` does map `k` again). -/
theorem c2_delete_semantics (db : GhalaDb) (k : Bytes)
    (hnd : (db.keys.map.map Prod.fst).Nodup) :
    (∀ ks (k0 : Bytes), (keysDelete ks k0).1 = .ok ()) ∧
    (∀ r db', engineDelete db k = (r, db') →
      mlookup db'.keys.map k = none ∧ engineGet db' k = .ok none) ∧
    (∀ db0 : GhalaDb, mlookup db0.keys.map k = none →
      (∀ k' v r db2, enginePut db0 k' v = (r, db2) → k' ≠ k →
        mlookup db2.keys.map k = none) ∧
      (∀ k' r db2, engineDelete db0 k' = (r, db2) →
        mlookup db2.keys.map k = none)) ∧
    (∀ v r db2, enginePut db k v = (r, db2) → r = .ok () →
      mlookup db2.keys.map k ≠ none) := by
  have habs : ∀ db0 : GhalaDb, ∀ k', mlookup db0.keys.map k = none →
      ∀ r db2, engineDelete db0 k' = (r, db2) →
      mlookup db2.keys.map k = none := by
    intro db0 k' h0 r db2 hdel
    unfold engineDelete keysDelete at hdel
    simp only at hdel
    exact gcStep_absent (by simp only; exact mlookup_none_mremove h0) hdel
  have hput : ∀ db0 : GhalaDb, mlookup db0.keys.map k = none →
      ∀ k' v r db2, enginePut db0 k' v = (r, db2) → k' ≠ k →
      mlookup db2.keys.map k = none := by
    intro db0 h0 k' v r db2 hp hne
    unfold enginePut at hp
    rcases hpc : putRawCore db0 k' v with ⟨rc, dbm⟩
    rw [hpc] at hp
    match rc with
    | .error e =>
      simp only at hp
      injection hp with h1 h2
      subst h2
      rcases putRawCore_err hpc with ⟨hkeys, _⟩ | ⟨dp, hmapx⟩
      · rw [hkeys]
        exact h0
      · rw [hmapx]
        rw [mlookup_minsert_ne (fun hh => hne hh.symm)]
        exact h0
    | .ok u =>
      cases u
      simp only at hp
      obtain ⟨dp, vm', _, _, hmap, _, _, _, _, _⟩ := putRawCore_ok hpc
      refine gcStep_absent ?_ hp
      rw [hmap, mlookup_minsert_ne (fun hh => hne hh.symm)]
      exact h0
  refine ⟨fun ks k0 => rfl, ?_, ?_, ?_⟩
  · intro r db' hdel
    have hres : mlookup db'.keys.map k = none := by
      unfold engineDelete keysDelete at hdel
      simp only at hdel
      exact gcStep_absent
        (by simp only; exact mlookup_mremove_self hnd) hdel
    refine ⟨hres, ?_⟩
    unfold engineGet keysGet
    rw [hres]
  · intro db0 h0
    exact ⟨hput db0 h0, fun k' => habs db0 k' h0⟩
  · intro v r db2 hp hr
    subst hr
    unfold enginePut at hp
    rcases hpc : putRawCore db k v with ⟨rc, dbm⟩
    rw [hpc] at hp
    match rc with
    | .error e => simp at hp
    | .ok u =>
      cases u
      simp only at hp
      obtain ⟨dp, vm', _, _, hmap, hlk, _, _, _, _⟩ := putRawCore_ok hpc
      exact gcStep_present (by rw [hlk]; simp) hp

/-- A fresh engine over a fresh directory, with identity snappy stand-ins
and a constant clock. -/
def dbFresh : GhalaDb :=
  engineNew DatabaseOptions.default [] (fun b => b) (fun b => some b)
    (fun _ => some 0)

theorem c2_delete_semantics_witness :
    ((dbFresh.keys.map.map Prod.fst).Nodup) ∧
    engineGet ((engineDelete ((enginePut dbFresh [1] [2]).2) [1]).2) [1] =
      .ok none :=
  ⟨by decide,
    ((c2_delete_semantics ((enginePut dbFresh [1] [2]).2) [1]
        (by decide)).2.1
      ((engineDelete ((enginePut dbFresh [1] [2]).2) [1]).1)
      ((engineDelete ((enginePut dbFresh [1] [2]).2) [1]).2) rfl).2⟩

/-! ## Claim C6: vlog write precedes index update -/

/-- A successful `Vlog::put` leaves the frame either in the write buffer
or appended to the file, unconditionally. -/
theorem vlogPut_ok_frame {v v' : Vlog} {de : DataEntry} {dp : DataPtr}
    (h : vlogPut v de = (.ok dp, v')) :
    v'.encoder = v.encoder ∧
      ((dp, vlogSer v de) ∈ v'.buf ∨
        ∃ i, (v'.disk.drop i).take (21 + (vlogSer v de).length) =
          serDP dp ++ vlogSer v de) := by
  unfold vlogPut at h
  split at h
  · unfold vlogWriteToBuf at h
    dsimp only at h
    rcases hfl : (if v.buf_sz + (vlogSer v de).length > v.conf.mem_buf_size ∧
        v.buf ≠ [] then vlogFlush v else (.ok (), v)) with ⟨rf, vf⟩
    rw [hfl] at h
    match rf with
    | .error e => simp at h
    | .ok _ =>
      simp only at h
      injection h with h1 h2
      injection h1 with h1
      subst h2
      have henc : vf.encoder = v.encoder := by
        split at hfl
        · have hfl' : vlogFlush v = (.ok (), vf) := by rw [hfl]
          exact (vlogFlush_ok hfl').2.2.2.2.2.2.1
        · injection hfl with hf1 hf2
          rw [← hf2]
      refine ⟨henc, Or.inl ?_⟩
      rw [← h1]
      simp
  · unfold vlogWriteDe at h
    dsimp only at h
    rcases hw1 : vlogWriteAll v (serDP ⟨v.num, v.w_off + DataPtr.serde_sz,
        (vlogSer v de).length % 2 ^ 32, v.conf.compress⟩) with ⟨r1, v1⟩
    rw [hw1] at h
    match r1 with
    | .error e => simp at h
    | .ok _ =>
      simp only at h
      rcases hw2 : vlogWriteAll v1 (vlogSer v de) with ⟨r2, v2⟩
      rw [hw2] at h
      match r2 with
      | .error e => simp at h
      | .ok _ =>
        simp only at h
        injection h with h1 h2
        injection h1 with h1
        subst h2
        subst h1
        have e1 := vlogWriteAll_ok hw1
        have e2 := vlogWriteAll_ok hw2
        subst e1
        subst e2
        refine ⟨rfl, Or.inr ⟨v.disk.length, ?_⟩⟩
        show ((v.disk ++ serDP _ ++ vlogSer v de).drop v.disk.length).take
          (21 + (vlogSer v de).length) = serDP _ ++ vlogSer v de
        rw [List.append_assoc, List.drop_append_eq_append_drop]
        simp only [List.drop_eq_nil_of_le (Nat.le_refl _), Nat.sub_self,
          List.drop_zero, List.nil_append]
        have hlen : (serDP ⟨v.num, v.w_off + DataPtr.serde_sz,
            (vlogSer v de).length % 2 ^ 32, v.conf.compress⟩ ++
            vlogSer v de).length = 21 + (vlogSer v de).length := by
          simp [serDP_length]
        rw [← hlen, List.take_length]

theorem manPut_ok_shape {m m' : VlogsMan} {de : DataEntry} {dp : DataPtr}
    (h : manPut m de = (.ok dp, m')) :
    ∃ tn m1 vt vt', manGetTail m = (.ok tn, m1) ∧
      alookup m1.vlogs tn = some vt ∧ vlogPut vt de = (.ok dp, vt') ∧
      m' = { m1 with vlogs := ains m1.vlogs tn vt' } := by
  unfold manPut at h
  rcases hgt : manGetTail m with ⟨rt, m1⟩
  rw [hgt] at h
  match rt with
  | .error e => simp at h
  | .ok tn =>
    simp only at h
    rcases hl : alookup m1.vlogs tn with _ | vt
    · rw [hl] at h
      simp at h
    · rw [hl] at h
      simp only at h
      rcases hvp : vlogPut vt de with ⟨rv, vt'⟩
      rw [hvp] at h
      injection h with h1 h2
      subst h1
      exact ⟨tn, m1, vt, vt', rfl, hl, hvp, h2.symm⟩

/-- C6: within one engine put the vlog write precedes the key-index
update.  If the vlog write fails, the same error propagates out of
`GhalaDb::put` and the key index is unchanged (the key keeps its previous
mapping or stays absent); if the core put succeeds, the serialized
`DataEntry` frame is at least buffered in (or already written to) a
segment of the vlog manager, and the key index maps `k` to the returned
pointer. -/
theorem c6_put_ordering (db : GhalaDb) (k v : Bytes) :
    (∀ e, (manPut db.vlogsMan ⟨k, v⟩).1 = .error e →
      (enginePut db k v).1 = .error e ∧ (enginePut db k v).2.keys = db.keys) ∧
    (∀ db', putRawCore db k v = (.ok (), db') →
      ∃ dp tn vl, alookup db'.vlogsMan.vlogs tn = some vl ∧
        ((dp, vlogSer vl ⟨k, v⟩) ∈ vl.buf ∨
          ∃ i, (vl.disk.drop i).take (21 + (vlogSer vl ⟨k, v⟩).length) =
            serDP dp ++ vlogSer vl ⟨k, v⟩) ∧
        mlookup db'.keys.map k = some dp) := by
  constructor
  · intro e herr
    have hpc : putRawCore db k v =
        (.error e, { db with vlogsMan := (manPut db.vlogsMan ⟨k, v⟩).2 }) := by
      unfold putRawCore
      dsimp only
      rcases hmp : manPut db.vlogsMan ⟨k, v⟩ with ⟨rm, vm'⟩
      rw [hmp] at herr
      simp only at herr
      subst herr
      rfl
    unfold enginePut
    rw [hpc]
    exact ⟨rfl, rfl⟩
  · intro db' hok
    obtain ⟨dp, vm', hmp, hvm, hmap, hlk, _, _, _, _⟩ := putRawCore_ok hok
    obtain ⟨tn, m1, vt, vt', hgt, hl, hvp, hm'⟩ := manPut_ok_shape hmp
    obtain ⟨henc, hframe⟩ := vlogPut_ok_frame hvp
    have hser : vlogSer vt' ⟨k, v⟩ = vlogSer vt ⟨k, v⟩ := by
      unfold vlogSer
      rw [henc]
    refine ⟨dp, tn, vt', ?_, ?_, hlk⟩
    · rw [hvm, hm']
      simp only
      exact alookup_ains_self _ _ _
    · rw [hser]
      exact hframe

/-- The default options with the vlog memory buffer disabled. -/
def optsNoBuf : DatabaseOptions :=
  { DatabaseOptions.default with vlog_mem_buf_enabled := false }

/-- A vlog whose next direct write fails (injected IO fault) with the
memory buffer disabled, so `Vlog::put` writes directly. -/
def vlogFaulty : Vlog :=
  { num := 0, w_off := 0, buf := [],
    conf := VlogConfig.fromOpts optsNoBuf,
    buf_sz := 0, active := true,
    encoder := some (fun b => b), decoder := some (fun b => some b),
    disk := [], faults := [true] }

/-- A vlog manager whose single segment's next write fails (injected IO
fault) with the memory buffer disabled, so `Vlog::put` writes directly. -/
def dbFaulty : GhalaDb :=
  { keys := keysNew [] optsNoBuf,
    vlogsMan :=
      { vlogs := [(0, vlogFaulty)],
        seq := 0,
        conf := optsNoBuf,
        infoFile := none,
        snapC := fun b => b,
        snapD := fun b => some b },
    gc := none,
    opts := optsNoBuf,
    clock := fun _ => some 0,
    clockIdx := 0 }

/-! ## Claim C1: put followed by get

The well-formedness facts that a reachable engine state enjoys are taken
as explicit hypotheses: the tail segment (if open) satisfies the frame
invariant with a coherent codec, the snappy codec round-trips, and the
janitor (if active) retires a segment older than the current sequence
number whose captured file tiles into decodable frames. -/

/-- The manager holds a decodable frame for `dp`: the pointer routes to a
segment whose frame sequence contains `(dp, p)` with an in-range payload
decoding to `de`. -/
def manLive (m : VlogsMan) (dp : DataPtr) (de : DataEntry) : Prop :=
  ∃ vl fsD p, alookup m.vlogs dp.vlog = some vl ∧ VlogInv vl fsD ∧
    (dp, p) ∈ fsD ++ vl.buf ∧ p.length < 2 ^ 32 ∧ vlogDeBytes vl p = .ok de

/-- `VlogsMan::get` returns the held entry. -/
theorem manLive_get {m : VlogsMan} {dp : DataPtr} {de : DataEntry}
    (h : manLive m dp de) : manGet m dp = .ok de := by
  obtain ⟨vl, fsD, p, hl, hinv, hm, hplen, hdec⟩ := h
  unfold manGet
  rw [hl]
  show vlogGet vl dp = .ok de
  rw [vlogGet_frame hinv hm hplen]
  exact hdec

/-- Decoding depends only on the decoder field. -/
theorem vlogDeBytes_congr {v v' : Vlog} (h : v'.decoder = v.decoder)
    (b : Bytes) : vlogDeBytes v' b = vlogDeBytes v b := by
  unfold vlogDeBytes
  rw [h]

/-- Codec coherence depends only on the codec fields. -/
theorem codecOk_congr {v v' : Vlog} (he : v'.encoder = v.encoder)
    (hd : v'.decoder = v.decoder) (h : CodecOk v) : CodecOk v' := by
  unfold CodecOk at h ⊢
  rw [he, hd]
  exact h

/-- A freshly opened segment's codec is coherent whenever the snappy pair
round-trips. -/
theorem codecOk_fromPath (num : VlogNum) (conf : VlogConfig) (disk : Bytes)
    (snapC : Bytes → Bytes) (snapD : Bytes → Option Bytes)
    (hsnap : ∀ x, snapD (snapC x) = some x) :
    CodecOk (vlogFromPath num conf disk snapC snapD) := by
  unfold CodecOk vlogFromPath
  cases hcomp : conf.compress
  · simp
  · simp
    exact hsnap

/-- What a freshly opened segment's encoder produces. -/
theorem vlogSer_fromPath (num : VlogNum) (conf : VlogConfig) (disk : Bytes)
    (snapC : Bytes → Bytes) (snapD : Bytes → Option Bytes) (de : DataEntry) :
    vlogSer (vlogFromPath num conf disk snapC snapD) de =
      if conf.compress then snapC (serDE de) else serDE de := by
  unfold vlogSer vlogFromPath
  cases hcomp : conf.compress <;> simp

/-- `VlogsMan::get_tail` (successful): the returned number is the old or
bumped sequence number, the resulting state's sequence equals it, the
codec/options fields are untouched, and the segment map is unchanged, or
extended with a fresh tail, or rolled over (old tail flushed, fresh tail
opened at the next number). -/
theorem manGetTail_ok {m m1 : VlogsMan} {tn : VlogNum}
    (h : manGetTail m = (.ok tn, m1)) :
    m.seq ≤ tn ∧ m1.conf = m.conf ∧ m1.snapC = m.snapC ∧
      m1.snapD = m.snapD ∧ m1.seq = tn ∧
      ((tn = m.seq ∧ m1 = m) ∨
        (tn = m.seq ∧ alookup m.vlogs m.seq = none ∧
          m1.vlogs = ains m.vlogs m.seq (manCreateNewVlog m)) ∨
        (tn = m.seq + 1 ∧ ∃ vlog vlog' u,
          alookup m.vlogs m.seq = some vlog ∧
          vlogFlush vlog = (.ok u, vlog') ∧
          m1.vlogs = ains (ains m.vlogs m.seq vlog') (m.seq + 1)
            (vlogFromPath (m.seq + 1) (VlogConfig.fromOpts m.conf) []
              m.snapC m.snapD))) := by
  unfold manGetTail at h
  rcases hl : alookup m.vlogs m.seq with _ | vlog
  · rw [hl] at h
    simp only at h
    injection h with h1 h2
    injection h1 with h1
    subst h1
    subst h2
    exact ⟨Nat.le_refl _, rfl, rfl, rfl, rfl, Or.inr (Or.inl ⟨rfl, rfl, rfl⟩)⟩
  · rw [hl] at h
    simp only at h
    split at h
    · rcases hfl : vlogFlush vlog with ⟨rf, vlog'⟩
      rw [hfl] at h
      match rf, h with
      | .error e, h => simp at h
      | .ok u, h =>
        simp only at h
        injection h with h1 h2
        injection h1 with h1
        subst h1
        subst h2
        refine ⟨Nat.le_succ _, rfl, rfl, rfl, rfl,
          Or.inr (Or.inr ⟨rfl, vlog, vlog', u, rfl, hfl, rfl⟩)⟩
    · injection h with h1 h2
      injection h1 with h1
      subst h1
      subst h2
      exact ⟨Nat.le_refl _, rfl, rfl, rfl, rfl, Or.inl ⟨rfl, rfl⟩⟩

/-- Encoded-entry length bound for a freshly opened segment. -/
theorem vlogSer_fromPath_len {conf : VlogConfig} {snapC : Bytes → Bytes}
    {snapD : Bytes → Option Bytes} {de : DataEntry}
    (h1 : (snapC (serDE de)).length < 2 ^ 32)
    (h2 : (serDE de).length < 2 ^ 32) (num : VlogNum) (disk : Bytes) :
    (vlogSer (vlogFromPath num conf disk snapC snapD) de).length < 2 ^ 32 := by
  rw [vlogSer_fromPath]
  split
  · exact h1
  · exact h2

/-- A successful `VlogsMan::put` under a well-formed tail: the returned
pointer's segment number is the (possibly bumped) tail number — at least
the old sequence number and equal to the new one — and the manager holds
the decodable frame it wrote. -/
theorem manPut_c1 {m m' : VlogsMan} {k v : Bytes} {dp : DataPtr}
    (hk : k.length < 2 ^ 64) (hv : v.length < 2 ^ 64)
    (htail : ∀ vl, alookup m.vlogs m.seq = some vl →
      vl.num = m.seq ∧ (∃ fsD, VlogInv vl fsD) ∧ CodecOk vl ∧
        (vlogSer vl ⟨k, v⟩).length < 2 ^ 32)
    (hsnap : ∀ x, m.snapD (m.snapC x) = some x)
    (hsnapLen : (m.snapC (serDE ⟨k, v⟩)).length < 2 ^ 32)
    (hrawLen : (serDE ⟨k, v⟩).length < 2 ^ 32)
    (hmp : manPut m ⟨k, v⟩ = (.ok dp, m')) :
    m.seq ≤ dp.vlog ∧ m'.seq = dp.vlog ∧ manLive m' dp ⟨k, v⟩ := by
  obtain ⟨tn, m1, vt, vt', hgt, hl1, hvp, hm'⟩ := manPut_ok_shape hmp
  obtain ⟨htnge, hconf, hsc, hsd, hseq1, hcases⟩ := manGetTail_ok hgt
  have hvt : vt.num = tn ∧ (∃ fsD, VlogInv vt fsD) ∧ CodecOk vt ∧
      (vlogSer vt ⟨k, v⟩).length < 2 ^ 32 := by
    rcases hcases with ⟨htn, hm1⟩ | ⟨htn, hnone, hvl⟩ |
        ⟨htn, vlog, vlog', u, hlk, hfl, hvl⟩
    · subst hm1
      subst htn
      exact htail vt hl1
    · subst htn
      rw [hvl, alookup_ains_self] at hl1
      injection hl1 with hl1
      subst hl1
      exact ⟨rfl, ⟨[], vlogInv_init _ _ _ _⟩,
        codecOk_fromPath _ _ _ _ _ hsnap,
        vlogSer_fromPath_len hsnapLen hrawLen _ _⟩
    · subst htn
      rw [hvl, alookup_ains_self] at hl1
      injection hl1 with hl1
      subst hl1
      exact ⟨rfl, ⟨[], vlogInv_init _ _ _ _⟩,
        codecOk_fromPath _ _ _ _ _ hsnap,
        vlogSer_fromPath_len hsnapLen hrawLen _ _⟩
  obtain ⟨hnum, ⟨fsD, hinv⟩, hcodec, hlen⟩ := hvt
  obtain ⟨fsD', hinv', hframes, hdpeq, hnum2, hconf2, henc2, hdec2, hw2⟩ :=
    vlogPut_ok hinv hvp
  have hdpv : dp.vlog = tn := by
    rw [hdpeq]
    exact hnum
  have hge : m.seq ≤ dp.vlog := by
    rw [hdpv]
    exact htnge
  refine ⟨hge, ?_, ?_⟩
  · rw [hm', hdpv]
    exact hseq1
  · refine ⟨vt', fsD', vlogSer vt ⟨k, v⟩, ?_, hinv', ?_, hlen, ?_⟩
    · rw [hm', hdpv]
      show alookup (ains m1.vlogs tn vt') tn = some vt'
      exact alookup_ains_self _ _ _
    · rw [hframes]
      simp
    · have hser : vlogSer vt ⟨k, v⟩ = vlogSer vt' ⟨k, v⟩ := by
        unfold vlogSer
        rw [henc2]
      rw [hser]
      exact vlogDeBytes_vlogSer (codecOk_congr henc2 hdec2 hcodec) hk hv

/-- A later `VlogsMan::put` preserves any held frame whose segment number
does not exceed the sequence number. -/
theorem manPut_live_pres {m m' : VlogsMan} {dp : DataPtr} {de de2 : DataEntry}
    {dp2 : DataPtr} (hlive : manLive m dp de) (hle : dp.vlog ≤ m.seq)
    (hmp : manPut m de2 = (.ok dp2, m')) : manLive m' dp de := by
  obtain ⟨tn, m1, vt, vt', hgt, hl1, hvp, hm'⟩ := manPut_ok_shape hmp
  obtain ⟨htnge, hconf, hsc, hsd, hseq1, hcases⟩ := manGetTail_ok hgt
  obtain ⟨vl, fsD, p, hl, hinv, hmem, hplen, hdec⟩ := hlive
  have hstep1 : manLive m1 dp de := by
    rcases hcases with ⟨htn, hm1⟩ | ⟨htn, hnone, hvl⟩ |
        ⟨htn, vlog, vlog', u, hlk, hfl, hvl⟩
    · rw [hm1]
      exact ⟨vl, fsD, p, hl, hinv, hmem, hplen, hdec⟩
    · have hne : dp.vlog ≠ m.seq := by
        intro heq
        rw [heq, hnone] at hl
        exact Option.noConfusion hl
      refine ⟨vl, fsD, p, ?_, hinv, hmem, hplen, hdec⟩
      rw [hvl, alookup_ains_ne hne]
      exact hl
    · by_cases heq : dp.vlog = m.seq
      · have hvleq : vlog = vl := by
          rw [heq, hlk] at hl
          exact Option.some.inj hl
        subst hvleq
        refine ⟨vlog', fsD ++ vlog.buf, p, ?_, vlogInv_flush hinv hfl, ?_,
          hplen, ?_⟩
        · have hne2 : m.seq ≠ m.seq + 1 := Nat.ne_of_lt (Nat.lt_succ_self _)
          rw [hvl, heq, alookup_ains_ne hne2]
          exact alookup_ains_self _ _ _
        · rw [(vlogFlush_ok hfl).2.1, List.append_nil]
          exact hmem
        · rw [vlogDeBytes_congr (vlogFlush_ok hfl).2.2.2.2.2.2.2.1]
          exact hdec
      · refine ⟨vl, fsD, p, ?_, hinv, hmem, hplen, hdec⟩
        have hne3 : dp.vlog ≠ m.seq + 1 := Nat.ne_of_lt (Nat.lt_succ_of_le hle)
        rw [hvl, alookup_ains_ne hne3, alookup_ains_ne heq]
        exact hl
  obtain ⟨vl1, fsD1, p1, hl1', hinv1, hmem1, hplen1, hdec1⟩ := hstep1
  by_cases heq : dp.vlog = tn
  · have hvteq : vt = vl1 := by
      rw [heq] at hl1'
      rw [hl1'] at hl1
      injection hl1 with hl1
      exact hl1.symm
    subst hvteq
    obtain ⟨fsD', hinv', hframes, _, _, _, henc2, hdec2, _⟩ :=
      vlogPut_ok hinv1 hvp
    refine ⟨vt', fsD', p1, ?_, hinv', ?_, hplen1, ?_⟩
    · rw [hm', heq]
      show alookup (ains m1.vlogs tn vt') tn = some vt'
      exact alookup_ains_self _ _ _
    · rw [hframes]
      exact List.mem_append_left _ hmem1
    · rw [vlogDeBytes_congr hdec2]
      exact hdec1
  · refine ⟨vl1, fsD1, p1, ?_, hinv1, hmem1, hplen1, hdec1⟩
    rw [hm']
    show alookup (ains m1.vlogs tn vt') dp.vlog = some vl1
    rw [alookup_ains_ne heq]
    exact hl1'

/-- Dropping a different segment preserves a held frame. -/
theorem manDrop_live_pres {m : VlogsMan} {dp : DataPtr} {de : DataEntry}
    {n : VlogNum} (hlive : manLive m dp de) (hne : dp.vlog ≠ n) :
    manLive (manDropVlog m n) dp de := by
  obtain ⟨vl, fsD, p, hl, hinv, hmem, hplen, hdec⟩ := hlive
  refine ⟨vl, fsD, p, ?_, hinv, hmem, hplen, hdec⟩
  show alookup (aremove m.vlogs n) dp.vlog = some vl
  rw [alookup_aremove_ne hne]
  exact hl

/-- A sweep never changes the janitor's segment number. -/
theorem sweep_vnum {j j' : Janitor} {ks : Keys}
    {r : Except GhalaDbError (Option DataEntry)}
    (h : sweep j ks = (r, j')) : j'.vnum = j.vnum := by
  unfold sweep at h
  rcases hs : sweepIter j.vlog_iter ks with ⟨r0, it'⟩
  rw [hs] at h
  injection h with h1 h2
  rw [← h2]

/-- A sweep that returns a live entry found that entry's key in the index,
mapped to one of the frame pointers of the janitor's captured file. -/
theorem sweep_live_ptr {j j' : Janitor} {ks : Keys} {de : DataEntry}
    {fs : List (DataPtr × Bytes)} {des : List DataEntry}
    (hrem : j.vlog_iter.file.drop j.vlog_iter.pos = framesBytes fs)
    (hfr : List.Forall₂ (FrameReads j.vlog_iter.decoder) fs des)
    (h : sweep j ks = (.ok (some de), j')) :
    ∃ dpf, keysGet ks de.key = some dpf ∧ dpf ∈ fs.map Prod.fst := by
  obtain ⟨r1, _⟩ := @sweepIter_frames ks fs des j.vlog_iter hrem hfr
  have hfst : (sweep j ks).1 = (sweepIter j.vlog_iter ks).1 := by
    unfold sweep
    rcases sweepIter j.vlog_iter ks with ⟨r0, it'⟩
    rfl
  rw [h] at hfst
  rw [r1] at hfst
  have hlr : liveResult ks ((fs.map Prod.fst).zip des) = some de :=
    Except.ok.inj hfst.symm
  unfold liveResult at hlr
  rcases hf : ((fs.map Prod.fst).zip des).find? (liveHit ks) with _ | fd
  · rw [hf] at hlr
    simp at hlr
  · rw [hf] at hlr
    have hlr2 : fd.2 = de := by
      simpa using hlr
    have hhit : liveHit ks fd = true := List.find?_some hf
    have hmem : fd ∈ (fs.map Prod.fst).zip des := List.mem_of_find?_eq_some hf
    have hmem1 : fd.1 ∈ fs.map Prod.fst := by
      rcases fd with ⟨a, b⟩
      exact (List.of_mem_zip hmem).1
    unfold liveHit at hhit
    rcases hkg : keysGet ks fd.2.key with _ | cur
    · rw [hkg] at hhit
      simp at hhit
    · rw [hkg] at hhit
      simp only [decide_eq_true_eq] at hhit
      refine ⟨fd.1, ?_, hmem1⟩
      rw [← hlr2, hkg, hhit]

/-- The janitor, when active, retires a segment strictly older than the
current sequence number, and its captured file suffix tiles into decodable
frames whose pointers all carry the retiring segment's number. -/
def JanOk (m : VlogsMan) : Option Janitor → Prop
  | none => True
  | some j => j.vnum < m.seq ∧ ∃ fs des,
      j.vlog_iter.file.drop j.vlog_iter.pos = framesBytes fs ∧
      List.Forall₂ (FrameReads j.vlog_iter.decoder) fs des ∧
      ∀ f ∈ fs, f.1.vlog = j.vnum

/-- C1: for every key `k` and value `v` (within the `u64` length bounds of
the bincode encoding), after a successful `put(k, v)` on a well-formed
database handle — open tail segment satisfying the frame invariant with a
coherent codec, round-tripping snappy pair, in-range encoded sizes, and a
janitor (if active) sweeping a retired segment of well-formed frames — a
subsequent `get(k)` on the same handle returns `Some(v)`: the engine wrote
the serialized `DataEntry` to the tail vlog, stored the returned
`DataPointer` in the key index, and `get` resolves the key through the
index and fetches the value from the vlog; the garbage-collection step
bundled into `put` can neither remove nor clobber the fresh mapping. -/
theorem c1_put_then_get {db db' : GhalaDb} {k v : Bytes}
    (hk : k.length < 2 ^ 64) (hv : v.length < 2 ^ 64)
    (htail : ∀ vl, alookup db.vlogsMan.vlogs db.vlogsMan.seq = some vl →
      vl.num = db.vlogsMan.seq ∧ (∃ fsD, VlogInv vl fsD) ∧ CodecOk vl ∧
        (vlogSer vl ⟨k, v⟩).length < 2 ^ 32)
    (hsnap : ∀ x, db.vlogsMan.snapD (db.vlogsMan.snapC x) = some x)
    (hsnapLen : (db.vlogsMan.snapC (serDE ⟨k, v⟩)).length < 2 ^ 32)
    (hrawLen : (serDE ⟨k, v⟩).length < 2 ^ 32)
    (hjan : JanOk db.vlogsMan db.gc)
    (hput : enginePut db k v = (.ok (), db')) :
    engineGet db' k = .ok (some v) := by
  have hfinal : ∀ (dbf : GhalaDb) (dp : DataPtr),
      mlookup dbf.keys.map k = some dp → manLive dbf.vlogsMan dp ⟨k, v⟩ →
      engineGet dbf k = .ok (some v) := by
    intro dbf dp h1 h2
    have hred : engineGet dbf k =
        match manGet dbf.vlogsMan dp with
        | .error e => .error e
        | .ok de => .ok (some de.val) := by
      unfold engineGet keysGet
      rw [h1]
    rw [hred, manLive_get h2]
  unfold enginePut at hput
  rcases hpc : putRawCore db k v with ⟨rc, db1⟩
  rw [hpc] at hput
  match rc with
  | .error e => simp at hput
  | .ok u =>
    cases u
    simp only at hput
    obtain ⟨dp, vm', hmp, hvm, hmap, hlk, hgc1, hopts1, hclk, hkconf⟩ :=
      putRawCore_ok hpc
    obtain ⟨hseqle, hseq', hlive⟩ :=
      manPut_c1 hk hv htail hsnap hsnapLen hrawLen hmp
    unfold gcStep at hput
    split at hput
    · injection hput with h1 h2
      subst h2
      refine hfinal db1 dp hlk ?_
      rw [hvm]
      exact hlive
    · rw [hgc1] at hput
      rcases hgcv : db.gc with _ | j
      · rw [hgcv] at hput
        simp only at hput
        rcases hng : manNeedsGc db1.vlogsMan with _ | vnum
        · rw [hng] at hput
          simp only at hput
          injection hput with h1 h2
          subst h2
          refine hfinal db1 dp hlk ?_
          rw [hvm]
          exact hlive
        · rw [hng] at hput
          simp only at hput
          injection hput with h1 h2
          subst h2
          refine hfinal _ dp hlk ?_
          show manLive db1.vlogsMan dp ⟨k, v⟩
          rw [hvm]
          exact hlive
      · rw [hgcv] at hput
        rw [hgcv] at hjan
        simp only [JanOk] at hjan
        obtain ⟨hvlt, fs, des, hrem, hfr, hall⟩ := hjan
        simp only at hput
        rcases hsw : sweep j db1.keys with ⟨rs, j'⟩
        rw [hsw] at hput
        match rs with
        | .error e => simp at hput
        | .ok none =>
          simp only at hput
          injection hput with h1 h2
          subst h2
          refine hfinal _ dp hlk ?_
          show manLive (manDropVlog db1.vlogsMan j'.vnum) dp ⟨k, v⟩
          rw [hvm]
          refine manDrop_live_pres hlive ?_
          rw [sweep_vnum hsw]
          exact (Nat.ne_of_lt (Nat.lt_of_lt_of_le hvlt hseqle)).symm
        | .ok (some de) =>
          simp only at hput
          obtain ⟨dpf, hkg, hdpfm⟩ := sweep_live_ptr hrem hfr hsw
          have hdpfv : dpf.vlog = j.vnum := by
            obtain ⟨f, hf, hfe⟩ := List.mem_map.mp hdpfm
            rw [← hfe]
            exact hall f hf
          have hne : de.key ≠ k := by
            intro heq
            rw [heq] at hkg
            unfold keysGet at hkg
            rw [hlk] at hkg
            have hde : dp = dpf := Option.some.inj hkg
            rw [hde] at hseqle
            exact absurd hdpfv
              (Nat.ne_of_lt (Nat.lt_of_lt_of_le hvlt hseqle)).symm
          obtain ⟨dp2, vm2, hmp2, hvm2, hmap2, hlk2, hgc2, _, _, _⟩ :=
            putRawCore_ok hput
          have hmp2' : manPut vm' ⟨de.key, de.val⟩ = (.ok dp2, vm2) := by
            rw [← hvm]
            exact hmp2
          refine hfinal db' dp ?_ ?_
          · have hmap2' : db'.keys.map = minsert db1.keys.map de.key dp2 :=
              hmap2
            rw [hmap2', mlookup_minsert_ne (fun hh => hne hh.symm)]
            exact hlk
          · rw [hvm2]
            exact manPut_live_pres hlive (le_of_eq hseq'.symm) hmp2'

theorem c1_put_then_get_witness :
    enginePut dbFresh [1] [2] = (.ok (), (enginePut dbFresh [1] [2]).2) ∧
    engineGet (enginePut dbFresh [1] [2]).2 [1] = .ok (some [2]) :=
  ⟨rfl,
    @c1_put_then_get dbFresh ((enginePut dbFresh [1] [2]).2) [1] [2]
      (by decide) (by decide)
      (fun vl h => Option.noConfusion h)
      (fun x => rfl) (by decide) (by decide) True.intro rfl⟩

theorem c6_put_ordering_witness :
    ((manPut dbFaulty.vlogsMan ⟨[1], [2]⟩).1 = .error (.IOError .otherIoErr) ∧
      (enginePut dbFaulty [1] [2]).1 = .error (.IOError .otherIoErr) ∧
      (enginePut dbFaulty [1] [2]).2.keys = dbFaulty.keys) ∧
    (∃ dp tn vl, alookup (putRawCore dbFresh [1] [2]).2.vlogsMan.vlogs tn = some vl ∧
      ((dp, vlogSer vl ⟨[1], [2]⟩) ∈ vl.buf ∨
        ∃ i, (vl.disk.drop i).take (21 + (vlogSer vl ⟨[1], [2]⟩).length) =
          serDP dp ++ vlogSer vl ⟨[1], [2]⟩) ∧
      mlookup (putRawCore dbFresh [1] [2]).2.keys.map [1] = some dp) :=
  ⟨⟨rfl,
    ((c6_put_ordering dbFaulty [1] [2]).1 (.IOError .otherIoErr) rfl).1,
    ((c6_put_ordering dbFaulty [1] [2]).1 (.IOError .otherIoErr) rfl).2⟩,
    (c6_put_ordering dbFresh [1] [2]).2 ((putRawCore dbFresh [1] [2]).2) rfl⟩

end GhalaDbModel
